import Mathlib

/-!
# Verification of the graph-salad generator (`pipeline/data_gen/gen_salads.py`)

This file gives a shallow embedding of the graph-mixing engine of
`gen_salads.py` and proves (or refutes) the frozen claims about it.

The data classes `Ere`, `Stmt`, `Graph` are imported by the source from
`gen_single_doc_graphs.py`, which is not part of the repository snapshot under
verification; the structures below are modelled from the specification's
data-model section.  Every algorithm embedded here (`reachable`,
`replace_ere`, `retrieve_related_stmt_ids`, the duplicate-type resolution of
`create_mix`, `abridge_graph`, `get_query_points`,
`get_possible_target_graph_ids` and the novelty bookkeeping of
`make_mixture_data`) is translated line by line from `gen_salads.py`.

Python `dict`s are modelled as a key `Finset` together with a total lookup
function; reading a key that is absent from the key set corresponds to a
Python `KeyError` (a crash), and the theorems below carry well-formedness
hypotheses that keep every lookup performed by the code inside the key set.
Python `set`s are modelled as `Finset String`.  Where Python iterates over a
`set` or `dict` in arbitrary / insertion order, the embedding either iterates
in a canonical sorted order or abstracts the order by a parameter; every
property proved below is insensitive to that order, as noted in place.
-/

/-! ## A computable total order on `String`

Used to enumerate a `Finset String` in a canonical order (standing in for
Python's unspecified set-iteration order).  Lean's built-in `String` order
does not reduce inside the kernel, so we roll a small character-wise one.
-/

def charLeB (a b : Char) : Bool := Nat.ble a.toNat b.toNat

def chListLeB : List Char → List Char → Bool
  | [], _ => true
  | _ :: _, [] => false
  | a :: as, b :: bs => if a = b then chListLeB as bs else charLeB a b

def strLeB (a b : String) : Bool := chListLeB a.data b.data

theorem chListLeB_total (a b : List Char) : chListLeB a b = true ∨ chListLeB b a = true := by
  induction a generalizing b with
  | nil => left; rfl
  | cons x xs ih =>
    cases b with
    | nil => right; rfl
    | cons y ys =>
      by_cases hxy : x = y
      · subst hxy
        simpa [chListLeB] using ih ys
      · have hyx : y ≠ x := fun h => hxy h.symm
        simp only [chListLeB, if_neg hxy, if_neg hyx, charLeB]
        rcases Nat.le_total x.toNat y.toNat with h | h
        · left; exact Nat.ble_eq.mpr h
        · right; exact Nat.ble_eq.mpr h

theorem chListLeB_antisymm {a b : List Char} (h1 : chListLeB a b = true)
    (h2 : chListLeB b a = true) : a = b := by
  induction a generalizing b with
  | nil =>
    cases b with
    | nil => rfl
    | cons y ys => simp [chListLeB] at h2
  | cons x xs ih =>
    cases b with
    | nil => simp [chListLeB] at h1
    | cons y ys =>
      by_cases hxy : x = y
      · subst hxy
        simp only [chListLeB, if_pos rfl] at h1 h2
        exact congrArg (x :: ·) (ih h1 h2)
      · have hyx : y ≠ x := fun h => hxy h.symm
        simp only [chListLeB, if_neg hxy, if_neg hyx, charLeB, Nat.ble_eq] at h1 h2
        exact absurd (Char.ext (UInt32.ext (Nat.le_antisymm h1 h2))) hxy

theorem chListLeB_trans {a b c : List Char} (h1 : chListLeB a b = true)
    (h2 : chListLeB b c = true) : chListLeB a c = true := by
  induction a generalizing b c with
  | nil => rfl
  | cons x xs ih =>
    cases b with
    | nil => simp [chListLeB] at h1
    | cons y ys =>
      cases c with
      | nil => simp [chListLeB] at h2
      | cons z zs =>
        by_cases hxy : x = y
        · subst hxy
          simp only [chListLeB, if_pos rfl] at h1
          by_cases hyz : x = z
          · subst hyz
            simp only [chListLeB, if_pos rfl] at h2 ⊢
            exact ih h1 h2
          · simp only [chListLeB, if_neg hyz] at h2 ⊢
            exact h2
        · simp only [chListLeB, if_neg hxy] at h1
          by_cases hyz : y = z
          · subst hyz
            simp only [chListLeB, if_neg hxy]
            exact h1
          · simp only [chListLeB, if_neg hyz] at h2
            by_cases hxz : x = z
            · subst hxz
              exfalso
              simp only [charLeB, Nat.ble_eq] at h1 h2
              exact hxy (Char.ext (UInt32.ext (Nat.le_antisymm h1 h2)))
            · simp only [chListLeB, if_neg hxz, charLeB, Nat.ble_eq] at h1 h2 ⊢
              exact Nat.le_trans h1 h2

theorem strLeB_total (a b : String) : strLeB a b = true ∨ strLeB b a = true :=
  chListLeB_total a.data b.data

theorem strLeB_antisymm {a b : String} (h1 : strLeB a b = true)
    (h2 : strLeB b a = true) : a = b := by
  cases a; cases b
  exact congrArg String.mk (chListLeB_antisymm h1 h2)

theorem strLeB_trans {a b c : String} (h1 : strLeB a b = true)
    (h2 : strLeB b c = true) : strLeB a c = true :=
  chListLeB_trans h1 h2

/-- Insert into a `strLeB`-sorted list, keeping it sorted. -/
def insLe (x : String) : List String → List String
  | [] => [x]
  | y :: ys => if strLeB x y then x :: y :: ys else y :: insLe x ys

/-- Insertion sort by `strLeB`; the canonical enumeration order used for
Python's arbitrary-order set iteration. -/
def sortLe : List String → List String
  | [] => []
  | x :: xs => insLe x (sortLe xs)

theorem insLe_perm (x : String) (l : List String) : (insLe x l).Perm (x :: l) := by
  induction l with
  | nil => simp [insLe]
  | cons y ys ih =>
    by_cases h : strLeB x y
    · simp [insLe, h]
    · simp only [insLe, if_neg h]
      exact (List.Perm.cons y ih).trans (List.Perm.swap x y ys)

theorem sortLe_perm (l : List String) : (sortLe l).Perm l := by
  induction l with
  | nil => simp [sortLe]
  | cons x xs ih =>
    exact (insLe_perm x (sortLe xs)).trans (List.Perm.cons x ih)

theorem insLe_sorted {l : List String} (x : String)
    (h : l.Pairwise (fun a b => strLeB a b = true)) :
    (insLe x l).Pairwise (fun a b => strLeB a b = true) := by
  induction l with
  | nil => simp [insLe]
  | cons y ys ih =>
    by_cases hxy : strLeB x y
    · simp only [insLe, if_pos hxy]
      refine List.Pairwise.cons ?_ h
      intro z hz
      rw [List.mem_cons] at hz
      rcases hz with rfl | hz
      · exact hxy
      · exact strLeB_trans hxy (List.rel_of_pairwise_cons h hz)
    · simp only [insLe, if_neg hxy]
      have hyx : strLeB y x = true := by
        rcases strLeB_total x y with h' | h'
        · exact absurd h' hxy
        · exact h'
      refine List.Pairwise.cons ?_ (ih (List.Pairwise.of_cons h))
      intro z hz
      have hz' := (insLe_perm x ys).mem_iff.mp hz
      rw [List.mem_cons] at hz'
      rcases hz' with rfl | hz'
      · exact hyx
      · exact List.rel_of_pairwise_cons h hz'

theorem sortLe_sorted (l : List String) :
    (sortLe l).Pairwise (fun a b => strLeB a b = true) := by
  induction l with
  | nil => simp [sortLe]
  | cons x xs ih => exact insLe_sorted x ih

theorem sortLe_eq_of_perm {l₁ l₂ : List String} (h : l₁.Perm l₂) :
    sortLe l₁ = sortLe l₂ := by
  haveI : IsAntisymm String (fun a b => strLeB a b = true) := ⟨fun _ _ => strLeB_antisymm⟩
  refine List.eq_of_perm_of_sorted ?_ (sortLe_sorted l₁) (sortLe_sorted l₂)
  exact ((sortLe_perm l₁).trans h).trans (sortLe_perm l₂).symm

/-- Canonical list enumeration of a `Finset String`: the stand-in for Python's
unspecified set/dict iteration order (every property proved about code that
iterates this way is independent of the order chosen). -/
def keyList (s : Finset String) : List String :=
  Quotient.lift sortLe (fun _ _ h => sortLe_eq_of_perm h) s.val

theorem mem_keyList {s : Finset String} {x : String} : x ∈ keyList s ↔ x ∈ s := by
  rcases s with ⟨m, hm⟩
  induction m using Quotient.inductionOn with
  | h l =>
    show x ∈ sortLe l ↔ _
    rw [(sortLe_perm l).mem_iff]
    rfl

theorem keyList_nodup (s : Finset String) : (keyList s).Nodup := by
  rcases s with ⟨m, hm⟩
  induction m using Quotient.inductionOn with
  | h l =>
    show (sortLe l).Nodup
    exact (sortLe_perm l).nodup_iff.mpr hm

/-! ## Data model

Modelled from the spec: the `Ere`/`Stmt`/`Graph` classes are imported by
`gen_salads.py` from `gen_single_doc_graphs.py`, which is outside the
verified snapshot.  Fields follow the spec's data-model section: an `Ere`
has an id, a category, an owning graph id, a neighbor-id set and an
incident-statement-id set; a `Stmt` has an id, a head id, an optional tail
id (`none` for a typing statement), a token-list label and an origin graph
id; a `Graph` owns id-keyed maps of eres and stmts.
-/

structure Ere where
  id : String
  category : String
  graph_id : String
  neighbor_ere_ids : Finset String
  stmt_ids : Finset String
deriving DecidableEq

structure Stmt where
  id : String
  head_id : String
  tail_id : Option String
  label : List String
  graph_id : String
deriving DecidableEq

/-- A Python `dict` is modelled as its key set plus a total lookup function;
values of the function outside the key set are unobservable junk (a Python
read there would raise `KeyError`). -/
structure Graph where
  ereKeys : Finset String
  stmtKeys : Finset String
  ere : String → Ere
  stmt : String → Stmt

attribute [ext] Graph

/-- Pointwise update of a lookup function at one key. -/
def upd {α : Type} (f : String → α) (k : String) (v : α) : String → α :=
  fun k' => if k' = k then v else f k'

theorem upd_same {α : Type} (f : String → α) (k : String) (v : α) : upd f k v k = v := by
  simp [upd]

theorem upd_other {α : Type} (f : String → α) (k : String) (v : α) {k' : String}
    (h : k' ≠ k) : upd f k v k' = f k' := by
  simp [upd, h]

/-- The set of node ids a statement mentions: `{head, tail}` for a binary
statement, `{head}` for a typing statement (`tail_id` absent). -/
def Stmt.endIds (st : Stmt) : Finset String :=
  match st.tail_id with
  | some t => {st.head_id, t}
  | none => {st.head_id}

/-- The `{head_id, tail_id}` contribution used by the source when it rebuilds
`neighbor_ere_ids` (`if graph_mix.stmts[item].tail_id` guards: a typing
statement contributes nothing). -/
def Stmt.pairIds (st : Stmt) : Finset String :=
  match st.tail_id with
  | some t => {st.head_id, t}
  | none => ∅

theorem pairIds_subset_endIds (st : Stmt) : st.pairIds ⊆ st.endIds := by
  cases h : st.tail_id <;> simp [Stmt.pairIds, Stmt.endIds, h]

/-! ## Reachability (`reachable`, gen_salads.py lines 42-54)

```
def reachable(graph, target_ere_id, new_ere_id):
    seen_eres = set()
    curr_eres = [target_ere_id]
    while new_ere_id not in seen_eres:
        seen_eres.update(curr_eres)
        next_eres = set([...neighbor_ere_ids of curr_eres...]) - seen_eres
        if not next_eres and new_ere_id not in seen_eres:
            return False
        curr_eres = list(next_eres)
    return True
```

The loop is embedded with explicit fuel; `none` means the fuel ran out
(which, by `reachable_spec` below, never happens for the fuel
`|eres| + 1` chosen by `reachable` on a dangling-reference-free graph).
-/

def reachableLoop (g : Graph) (new_ere_id : String) :
    Nat → Finset String → Finset String → Option Bool
  | 0, _, _ => none
  | fuel + 1, seen, curr =>
    if new_ere_id ∈ seen then some true
    else
      let seen' := seen ∪ curr
      let next := (curr.biUnion fun k => (g.ere k).neighbor_ere_ids) \ seen'
      if next = ∅ ∧ new_ere_id ∉ seen' then some false
      else reachableLoop g new_ere_id fuel seen' next

/-- Lines 42-54.  `some b`: the Python loop terminates with answer `b`;
`none`: the modelling fuel ran out. -/
def reachable (g : Graph) (target_ere_id new_ere_id : String) : Option Bool :=
  reachableLoop g new_ere_id (g.ereKeys.card + 1) ∅ {target_ere_id}

/-- Boolean wrapper used where callers of `reachable` consume its result as a
Python `bool` (the `getD` default is irrelevant on inputs where the loop
terminates, which `reachable_spec` guarantees for well-formed graphs). -/
def reachableB (g : Graph) (a b : String) : Bool := (reachable g a b).getD false

/-- One BFS edge: `y` is listed among `x`'s neighbours. -/
def nstep (g : Graph) (x y : String) : Prop := y ∈ (g.ere x).neighbor_ere_ids

/-- A graph has no dangling neighbor references. -/
def NeighborsClosed (g : Graph) : Prop :=
  ∀ k ∈ g.ereKeys, (g.ere k).neighbor_ere_ids ⊆ g.ereKeys

instance (g : Graph) : Decidable (NeighborsClosed g) := by
  unfold NeighborsClosed; infer_instance

theorem rtg_mem_of_closed {g : Graph} (hcl : NeighborsClosed g) {a y : String}
    (ha : a ∈ g.ereKeys) (h : Relation.ReflTransGen (nstep g) a y) : y ∈ g.ereKeys := by
  induction h with
  | refl => exact ha
  | tail _ hstep ih => exact hcl _ ih hstep

theorem rtg_closed_finset {g : Graph} {S : Finset String}
    (hS : ∀ x ∈ S, (g.ere x).neighbor_ere_ids ⊆ S) {a y : String} (ha : a ∈ S)
    (h : Relation.ReflTransGen (nstep g) a y) : y ∈ S := by
  induction h with
  | refl => exact ha
  | tail _ hstep ih => exact hS _ ih hstep

theorem reachableLoop_succ (g : Graph) (nid : String) (fuel : Nat)
    (seen curr : Finset String) :
    reachableLoop g nid (fuel + 1) seen curr =
      if nid ∈ seen then some true
      else
        if ((curr.biUnion fun k => (g.ere k).neighbor_ere_ids) \ (seen ∪ curr)) = ∅ ∧
            nid ∉ seen ∪ curr then some false
        else reachableLoop g nid fuel (seen ∪ curr)
          ((curr.biUnion fun k => (g.ere k).neighbor_ere_ids) \ (seen ∪ curr)) := rfl

theorem reachableLoop_spec (g : Graph) (nid a : String) (hcl : NeighborsClosed g) :
    ∀ (fuel : Nat) (seen curr : Finset String),
      seen ⊆ g.ereKeys → curr ⊆ g.ereKeys → Disjoint seen curr →
      (curr = ∅ → nid ∈ seen) →
      (∀ x ∈ seen ∪ curr, Relation.ReflTransGen (nstep g) a x) →
      (∀ x ∈ seen, (g.ere x).neighbor_ere_ids ⊆ seen ∪ curr) →
      a ∈ seen ∪ curr →
      g.ereKeys.card + 1 ≤ fuel + seen.card →
      ∃ b, reachableLoop g nid fuel seen curr = some b ∧
        (b = true ↔ Relation.ReflTransGen (nstep g) a nid) := by
  intro fuel
  induction fuel with
  | zero =>
    intro seen curr hseen _ _ _ _ _ _ hcard
    exfalso
    have h1 : seen.card ≤ g.ereKeys.card := Finset.card_le_card hseen
    omega
  | succ fuel ih =>
    intro seen curr hseen hcurr hdisj hemp hsound hfront ha hcard
    by_cases hto : nid ∈ seen
    · refine ⟨true, ?_, ?_⟩
      · simp [reachableLoop, hto]
      · simp only [true_iff]
        exact hsound nid (Finset.mem_union_left _ hto)
    · have hcurrne : curr ≠ ∅ := by
        intro h
        exact hto (hemp h)
      set seen' := seen ∪ curr with hseenUdef
      set next := (curr.biUnion fun k => (g.ere k).neighbor_ere_ids) \ seen' with hnextdef
      have hfront' : ∀ x ∈ seen', (g.ere x).neighbor_ere_ids ⊆ seen' ∪ next := by
        intro x hx
        rcases Finset.mem_union.mp hx with hx | hx
        · exact (hfront x hx).trans Finset.subset_union_left
        · intro y hy
          by_cases hy' : y ∈ seen'
          · exact Finset.mem_union_left _ hy'
          · refine Finset.mem_union_right _ ?_
            rw [hnextdef, Finset.mem_sdiff]
            exact ⟨Finset.mem_biUnion.mpr ⟨x, hx, hy⟩, hy'⟩
      by_cases hstop : next = ∅ ∧ nid ∉ seen'
      · refine ⟨false, ?_, ?_⟩
        · rw [reachableLoop_succ, if_neg hto, if_pos hstop]
        · refine iff_of_false (by simp) ?_
          intro hreach
          have hclosed : ∀ x ∈ seen', (g.ere x).neighbor_ere_ids ⊆ seen' := by
            intro x hx
            have := hfront' x hx
            rwa [hstop.1, Finset.union_empty] at this
          exact hstop.2 (rtg_closed_finset hclosed ha hreach)
      · have hrec := ih seen' next
          (Finset.union_subset hseen hcurr)
          (Finset.sdiff_subset.trans (by
            intro y hy
            rcases Finset.mem_biUnion.mp hy with ⟨x, hx, hy'⟩
            exact hcl x (hcurr hx) hy'))
          (Finset.disjoint_right.mpr fun {y} hy =>
            (Finset.mem_sdiff.mp hy).2)
          (fun h => by
            by_contra hto'
            exact hstop ⟨h, hto'⟩)
          (by
            intro x hx
            rcases Finset.mem_union.mp hx with hx | hx
            · exact hsound x hx
            · rcases Finset.mem_biUnion.mp (Finset.mem_sdiff.mp hx).1 with ⟨c, hc, hx'⟩
              exact (hsound c (Finset.mem_union_right _ hc)).tail hx')
          hfront'
          (Finset.mem_union_left _ ha)
          (by
            have hlt : seen.card < seen'.card := by
              refine Finset.card_lt_card ?_
              rw [hseenUdef]
              refine Finset.ssubset_iff_of_subset Finset.subset_union_left |>.mpr ?_
              rcases Finset.nonempty_iff_ne_empty.mpr hcurrne with ⟨c, hc⟩
              exact ⟨c, Finset.mem_union_right _ hc, fun hmem => Finset.disjoint_left.mp hdisj hmem hc⟩
            omega)
        rcases hrec with ⟨b, hb, hiff⟩
        refine ⟨b, ?_, hiff⟩
        rw [reachableLoop_succ, if_neg hto, if_neg hstop]
        exact hb

/-- C8: on a finite graph with no dangling neighbor references (cycles
allowed) and `target_ere_id` present, `reachable` terminates — the fuelled
loop yields an answer within `|eres| + 1` rounds — and answers `true` exactly
when `new_ere_id` is visited by the BFS, i.e. lies in the reflexive-transitive
closure of the neighbour relation from `target_ere_id`. -/
theorem reachable_spec (g : Graph) (a nid : String) (hcl : NeighborsClosed g)
    (ha : a ∈ g.ereKeys) :
    ∃ b, reachable g a nid = some b ∧
      (b = true ↔ Relation.ReflTransGen (nstep g) a nid) := by
  refine reachableLoop_spec g nid a hcl (g.ereKeys.card + 1) ∅ {a} ?_ ?_ ?_ ?_ ?_ ?_ ?_ ?_
  · exact Finset.empty_subset _
  · simpa using ha
  · simp
  · intro h
    simp at h
  · intro x hx
    have : x = a := by simpa using hx
    subst this
    exact Relation.ReflTransGen.refl
  · intro x hx
    simp at hx
  · simp
  · simp

/-- Concrete graph for the `reachable` witnesses: a 3-node path `wa — wb — wc`
with symmetric adjacency and no statements (statements are irrelevant to
`reachable`). -/
def wEre (i : String) (nbrs : Finset String) : Ere :=
  { id := i, category := "Entity", graph_id := "G", neighbor_ere_ids := nbrs,
    stmt_ids := ∅ }

def wa : String := "a"

def wb : String := "b"

def wc : String := "c"

def wStmt : Stmt :=
  { id := "s", head_id := wa, tail_id := none, label := [], graph_id := "G" }

def W8g : Graph :=
  { ereKeys := {wa, wb, wc}, stmtKeys := ∅,
    ere := fun k => if k = wa then wEre wa {wb}
      else if k = wb then wEre wb {wa, wc}
      else wEre wc {wb},
    stmt := fun _ => wStmt }

/-- Witness for C8: `reachable_spec` applied to the concrete graph `W8g`. -/
theorem reachable_spec_witness :
    ∃ b, reachable W8g wa wc = some b ∧
      (b = true ↔ Relation.ReflTransGen (nstep W8g) wa wc) :=
  reachable_spec W8g wa wc (by decide) (by decide)

/-- C9: on a graph whose adjacency is undirected (mutual neighbour listing)
and free of dangling references, `reachable` is symmetric in its two node
arguments whenever both are present. -/
theorem reachable_symm (g : Graph) (a b : String) (hcl : NeighborsClosed g)
    (hsym : ∀ x ∈ g.ereKeys, ∀ y ∈ g.ereKeys,
      (y ∈ (g.ere x).neighbor_ere_ids ↔ x ∈ (g.ere y).neighbor_ere_ids))
    (ha : a ∈ g.ereKeys) (hb : b ∈ g.ereKeys) :
    reachable g a b = reachable g b a := by
  obtain ⟨b1, h1, hiff1⟩ := reachable_spec g a b hcl ha
  obtain ⟨b2, h2, hiff2⟩ := reachable_spec g b a hcl hb
  have hsymRTG : ∀ x y : String, x ∈ g.ereKeys →
      Relation.ReflTransGen (nstep g) x y → Relation.ReflTransGen (nstep g) y x := by
    intro x y hx h
    induction h with
    | refl => exact Relation.ReflTransGen.refl
    | tail hxc hstep ih =>
      rename_i c d
      have hcmem : c ∈ g.ereKeys := rtg_mem_of_closed hcl hx hxc
      have hdmem : d ∈ g.ereKeys := hcl c hcmem hstep
      have hback : nstep g d c := (hsym c hcmem d hdmem).mp hstep
      exact (Relation.ReflTransGen.single hback).trans ih
  have hbb : b1 = b2 := by
    have hpq : Relation.ReflTransGen (nstep g) a b ↔ Relation.ReflTransGen (nstep g) b a :=
      ⟨fun h => hsymRTG a b ha h, fun h => hsymRTG b a hb h⟩
    cases b1 <;> cases b2 <;> simp_all
  rw [h1, h2, hbb]

/-- Witness for C9: symmetry of `reachable` on the concrete graph `W8g`. -/
theorem reachable_symm_witness : reachable W8g wa wc = reachable W8g wc wa :=
  reachable_symm W8g wa wc (by decide) (by decide) (by decide) (by decide)

/-! ## Node Merger (`replace_ere`, gen_salads.py lines 57-76)

```
def replace_ere(graph, source_id, target_ere):
    neighbor_ere_ids = graph.eres[source_id].neighbor_ere_ids.copy()
    stmt_ids = graph.eres[source_id].stmt_ids.copy()
    del graph.eres[source_id]
    graph.eres[target_ere.id] = deepcopy(target_ere)
    graph.eres[target_ere.id].neighbor_ere_ids = neighbor_ere_ids
    graph.eres[target_ere.id].stmt_ids = stmt_ids
    for stmt_id in stmt_ids:
        if graph.stmts[stmt_id].tail_id == source_id:
            graph.stmts[stmt_id].tail_id = target_ere.id
            graph.eres[graph.stmts[stmt_id].head_id].neighbor_ere_ids.discard(source_id)
            graph.eres[graph.stmts[stmt_id].head_id].neighbor_ere_ids.add(target_ere.id)
        if graph.stmts[stmt_id].head_id == source_id:
            graph.stmts[stmt_id].head_id = target_ere.id
            if graph.stmts[stmt_id].tail_id is not None:
                graph.eres[graph.stmts[stmt_id].tail_id].neighbor_ere_ids.discard(source_id)
                graph.eres[graph.stmts[stmt_id].tail_id].neighbor_ere_ids.add(target_ere.id)
```

The loop body reads the statement's current (possibly just-rewritten) fields,
which `replaceStep` mirrors exactly.  The loop iterates a Python set; here it
folds over the canonical enumeration `keyList` — all per-statement updates
commute, so the order is irrelevant (and the closed form proved below is
order-free).  On a statement with `head_id == tail_id == source_id` the
Python code would look up the just-deleted `eres[source_id]` and raise
`KeyError`; the theorems below exclude that by hypothesis.
-/

/-- One iteration of the `for stmt_id in stmt_ids` loop of `replace_ere`. -/
def replaceStep (source_id tgt_id : String) (g : Graph) (stmt_id : String) : Graph :=
  let g2 :=
    if (g.stmt stmt_id).tail_id = some source_id then
      let st' := { g.stmt stmt_id with tail_id := some tgt_id }
      let h := (g.stmt stmt_id).head_id
      let e' := { g.ere h with neighbor_ere_ids := insert tgt_id ((g.ere h).neighbor_ere_ids.erase source_id) }
      { g with stmt := upd g.stmt stmt_id st', ere := upd g.ere h e' }
    else g
  if (g2.stmt stmt_id).head_id = source_id then
    let st2 := { g2.stmt stmt_id with head_id := tgt_id }
    let g3 := { g2 with stmt := upd g2.stmt stmt_id st2 }
    match st2.tail_id with
    | some t =>
      let e2 := { g3.ere t with neighbor_ere_ids := insert tgt_id ((g3.ere t).neighbor_ere_ids.erase source_id) }
      { g3 with ere := upd g3.ere t e2 }
    | none => g3
  else g2

/-- Lines 57-76. -/
def replace_ere (g : Graph) (source_id : String) (target_ere : Ere) : Graph :=
  let neighbor_ere_ids := (g.ere source_id).neighbor_ere_ids
  let stmt_ids := (g.ere source_id).stmt_ids
  let tcopy := { target_ere with neighbor_ere_ids := neighbor_ere_ids, stmt_ids := stmt_ids }
  let g1 : Graph :=
    { g with
      ereKeys := insert target_ere.id (g.ereKeys.erase source_id),
      ere := upd g.ere target_ere.id tcopy }
  (keyList stmt_ids).foldl (replaceStep source_id target_ere.id) g1

/-- How one statement's record looks after the loop has processed it. -/
def replRewrite (g : Graph) (source_id tgt_id : String) (s : String) : Stmt :=
  let st := g.stmt s
  { st with
    head_id := if st.head_id = source_id then tgt_id else st.head_id,
    tail_id := if st.tail_id = some source_id then some tgt_id else st.tail_id }

/-- The node(s) whose `neighbor_ere_ids` the loop body touches when it
processes statement `s` (the endpoint opposite to `source_id`). -/
def replOther (g : Graph) (source_id tgt_id : String) (s : String) : Finset String :=
  let st := g.stmt s
  (if st.tail_id = some source_id then {st.head_id} else ∅) ∪
    (if st.head_id = source_id then
      (match (if st.tail_id = some source_id then some tgt_id else st.tail_id) with
        | some t => {t}
        | none => ∅)
      else ∅)

/-- The node table right after `replace_ere` deleted `source_id` and inserted
the copied target node (before the statement loop runs). -/
def replBase (g : Graph) (source_id : String) (target_ere : Ere) : String → Ere :=
  upd g.ere target_ere.id
    { target_ere with
      neighbor_ere_ids := (g.ere source_id).neighbor_ere_ids,
      stmt_ids := (g.ere source_id).stmt_ids }

/-- State of the graph after `replace_ere`'s initial node swap plus the loop
having processed exactly the statements in `P`. -/
def replDesc (g : Graph) (source_id : String) (target_ere : Ere) (P : Finset String) : Graph :=
  let sids := (g.ere source_id).stmt_ids
  let base := replBase g source_id target_ere
  { ereKeys := insert target_ere.id (g.ereKeys.erase source_id),
    stmtKeys := g.stmtKeys,
    stmt := fun s => if s ∈ P ∩ sids then replRewrite g source_id target_ere.id s else g.stmt s,
    ere := fun k =>
      if k ∈ (P ∩ sids).biUnion (replOther g source_id target_ere.id) then
        { base k with neighbor_ere_ids := insert target_ere.id ((base k).neighbor_ere_ids.erase source_id) }
      else base k }

theorem replDesc_ereKeys (g : Graph) (source_id : String) (target_ere : Ere) (P : Finset String) :
    (replDesc g source_id target_ere P).ereKeys =
      insert target_ere.id (g.ereKeys.erase source_id) := rfl

theorem replDesc_stmtKeys (g : Graph) (source_id : String) (target_ere : Ere) (P : Finset String) :
    (replDesc g source_id target_ere P).stmtKeys = g.stmtKeys := rfl

theorem replDesc_stmt (g : Graph) (source_id : String) (target_ere : Ere) (P : Finset String)
    (s : String) :
    (replDesc g source_id target_ere P).stmt s =
      if s ∈ P ∩ (g.ere source_id).stmt_ids then replRewrite g source_id target_ere.id s
      else g.stmt s := rfl

theorem replDesc_ere (g : Graph) (source_id : String) (target_ere : Ere) (P : Finset String)
    (k : String) :
    (replDesc g source_id target_ere P).ere k =
      if k ∈ (P ∩ (g.ere source_id).stmt_ids).biUnion (replOther g source_id target_ere.id) then
        { replBase g source_id target_ere k with neighbor_ere_ids := insert target_ere.id ((replBase g source_id target_ere k).neighbor_ere_ids.erase source_id) }
      else replBase g source_id target_ere k := rfl

theorem insert_erase_idem (tgt_id source_id : String) (x : Finset String) :
    insert tgt_id ((insert tgt_id (x.erase source_id)).erase source_id) =
      insert tgt_id (x.erase source_id) := by
  ext y
  simp only [Finset.mem_insert, Finset.mem_erase]
  tauto


theorem replaceStep_of_tail (g' : Graph) (src tid a : String)
    (h1 : (g'.stmt a).tail_id = some src) (h2 : (g'.stmt a).head_id ≠ src) :
    replaceStep src tid g' a =
      { g' with
        stmt := upd g'.stmt a { g'.stmt a with tail_id := some tid },
        ere := upd g'.ere (g'.stmt a).head_id { g'.ere (g'.stmt a).head_id with neighbor_ere_ids := insert tid (((g'.ere (g'.stmt a).head_id).neighbor_ere_ids).erase src) } } := by
  have h2' : ((upd g'.stmt a { g'.stmt a with tail_id := some tid } a).head_id = src) = False := by
    simp only [upd_same]
    exact eq_false h2
  simp only [replaceStep, if_pos h1, h2', if_false]

theorem replaceStep_of_head_some (g' : Graph) (src tid a t : String)
    (h1 : (g'.stmt a).tail_id ≠ some src) (h2 : (g'.stmt a).head_id = src)
    (ht : (g'.stmt a).tail_id = some t) :
    replaceStep src tid g' a =
      { g' with
        stmt := upd g'.stmt a { g'.stmt a with head_id := tid },
        ere := upd g'.ere t { g'.ere t with neighbor_ere_ids := insert tid (((g'.ere t).neighbor_ere_ids).erase src) } } := by
  have h2' : ((g'.stmt a).head_id = src) = True := eq_true h2
  have h1' : ((some t : Option String) = some src) = False :=
    eq_false fun h => h1 (ht.trans h)
  simp only [replaceStep, ht, h1', if_false, h2', if_true, upd_same]

theorem replaceStep_of_head_none (g' : Graph) (src tid a : String)
    (h2 : (g'.stmt a).head_id = src) (ht : (g'.stmt a).tail_id = none) :
    replaceStep src tid g' a =
      { g' with stmt := upd g'.stmt a { g'.stmt a with head_id := tid } } := by
  have h2' : ((g'.stmt a).head_id = src) = True := eq_true h2
  have h1' : ((none : Option String) = some src) = False := by simp
  simp only [replaceStep, ht, h1', if_false, h2', if_true, upd_same]

theorem replaceStep_of_miss (g' : Graph) (src tid a : String)
    (h1 : (g'.stmt a).tail_id ≠ some src) (h2 : (g'.stmt a).head_id ≠ src) :
    replaceStep src tid g' a = g' := by
  have h2' : ((g'.stmt a).head_id = src) = False := eq_false h2
  simp only [replaceStep, if_neg h1, h2', if_false]

theorem replaceStep_desc (g : Graph) (source_id : String) (target_ere : Ere)
    (P : Finset String) (a : String)
    (ha : a ∈ (g.ere source_id).stmt_ids) (haP : a ∉ P)
    (hnl : ¬((g.stmt a).head_id = source_id ∧ (g.stmt a).tail_id = some source_id)) :
    replaceStep source_id target_ere.id (replDesc g source_id target_ere P) a =
      replDesc g source_id target_ere (insert a P) := by
  classical
  have hstmt_a : (replDesc g source_id target_ere P).stmt a = g.stmt a := by
    rw [replDesc_stmt]
    simp [Finset.mem_inter, haP]
  have hinter : (insert a P) ∩ (g.ere source_id).stmt_ids =
      insert a (P ∩ (g.ere source_id).stmt_ids) := by
    ext s
    simp only [Finset.mem_inter, Finset.mem_insert]
    constructor
    · rintro ⟨hs | hs, hs2⟩
      · exact Or.inl hs
      · exact Or.inr ⟨hs, hs2⟩
    · rintro (rfl | ⟨hs, hs2⟩)
      · exact ⟨Or.inl rfl, ha⟩
      · exact ⟨Or.inr hs, hs2⟩
  have htouched : ((insert a P) ∩ (g.ere source_id).stmt_ids).biUnion
        (replOther g source_id target_ere.id) =
      replOther g source_id target_ere.id a ∪
        (P ∩ (g.ere source_id).stmt_ids).biUnion (replOther g source_id target_ere.id) := by
    rw [hinter, Finset.biUnion_insert]
  have hstmtfield : ∀ rew : Stmt,
      rew = replRewrite g source_id target_ere.id a →
      upd (replDesc g source_id target_ere P).stmt a rew =
        (replDesc g source_id target_ere (insert a P)).stmt := by
    intro rew hrew
    funext s
    by_cases hs : s = a
    · subst hs
      rw [upd_same, replDesc_stmt, hinter]
      simp [Finset.mem_insert, ha, hrew]
    · rw [upd_other _ _ _ hs, replDesc_stmt, replDesc_stmt, hinter]
      simp [Finset.mem_insert, hs]
  have herefield : ∀ w : String,
      replOther g source_id target_ere.id a = {w} →
      upd (replDesc g source_id target_ere P).ere w
          { (replDesc g source_id target_ere P).ere w with neighbor_ere_ids := insert target_ere.id (((replDesc g source_id target_ere P).ere w).neighbor_ere_ids.erase source_id) } =
        (replDesc g source_id target_ere (insert a P)).ere := by
    intro w hw
    funext k
    by_cases hk : k = w
    · subst hk
      rw [upd_same]
      rw [replDesc_ere, replDesc_ere, htouched, hw]
      by_cases hkT : k ∈ (P ∩ (g.ere source_id).stmt_ids).biUnion (replOther g source_id target_ere.id)
      · simp [hkT, insert_erase_idem]
      · simp [hkT]
    · rw [upd_other _ _ _ hk, replDesc_ere, replDesc_ere, htouched, hw]
      have hmem : (k ∈ ({w} : Finset String) ∪ (P ∩ (g.ere source_id).stmt_ids).biUnion (replOther g source_id target_ere.id)) ↔
          k ∈ (P ∩ (g.ere source_id).stmt_ids).biUnion (replOther g source_id target_ere.id) := by
        simp [Finset.mem_union, hk]
      simp only [hmem]
  have herefield0 :
      replOther g source_id target_ere.id a = ∅ →
      (replDesc g source_id target_ere P).ere =
        (replDesc g source_id target_ere (insert a P)).ere := by
    intro hw
    funext k
    rw [replDesc_ere, replDesc_ere, htouched, hw]
    simp
  by_cases htail : (g.stmt a).tail_id = some source_id
  · have hhead : (g.stmt a).head_id ≠ source_id := fun h => hnl ⟨h, htail⟩
    have hoth : replOther g source_id target_ere.id a = {(g.stmt a).head_id} := by
      simp [replOther, htail, hhead]
    rw [replaceStep_of_tail (replDesc g source_id target_ere P) source_id target_ere.id a
      (by rw [hstmt_a]; exact htail) (by rw [hstmt_a]; exact hhead)]
    refine Graph.ext rfl rfl ?_ ?_
    · rw [hstmt_a]
      exact herefield _ hoth
    · rw [hstmt_a]
      refine hstmtfield _ ?_
      simp [replRewrite, htail, hhead]
  · by_cases hhead : (g.stmt a).head_id = source_id
    · cases ht : (g.stmt a).tail_id with
      | none =>
        have hoth : replOther g source_id target_ere.id a = ∅ := by
          simp [replOther, htail, hhead, ht]
        rw [replaceStep_of_head_none (replDesc g source_id target_ere P) source_id
          target_ere.id a (by rw [hstmt_a]; exact hhead) (by rw [hstmt_a]; exact ht)]
        refine Graph.ext rfl rfl ?_ ?_
        · exact herefield0 hoth
        · rw [hstmt_a]
          refine hstmtfield _ ?_
          simp [replRewrite, htail, hhead, ht]
      | some t =>
        have htne : t ≠ source_id := by
          intro h
          subst h
          exact htail ht
        have hoth : replOther g source_id target_ere.id a = {t} := by
          simp [replOther, htail, hhead, ht, htne]
        rw [replaceStep_of_head_some (replDesc g source_id target_ere P) source_id
          target_ere.id a t (by rw [hstmt_a]; exact htail) (by rw [hstmt_a]; exact hhead)
          (by rw [hstmt_a]; exact ht)]
        refine Graph.ext rfl rfl ?_ ?_
        · exact herefield _ hoth
        · rw [hstmt_a]
          refine hstmtfield _ ?_
          simp [replRewrite, htail, hhead, ht, htne]
    · have hoth : replOther g source_id target_ere.id a = ∅ := by
        simp only [replOther, htail, hhead]
        cases ht : (g.stmt a).tail_id <;> simp
      rw [replaceStep_of_miss (replDesc g source_id target_ere P) source_id target_ere.id a
        (by rw [hstmt_a]; exact htail) (by rw [hstmt_a]; exact hhead)]
      refine Graph.ext rfl rfl ?_ ?_
      · exact herefield0 hoth
      · have hupd : (replDesc g source_id target_ere P).stmt =
            upd (replDesc g source_id target_ere P).stmt a (replRewrite g source_id target_ere.id a) := by
          funext s
          by_cases hs : s = a
          · subst hs
            rw [upd_same, hstmt_a]
            simp [replRewrite, htail, hhead]
          · rw [upd_other _ _ _ hs]
        rw [hupd]
        exact hstmtfield _ rfl

theorem keyList_toFinset (s : Finset String) : (keyList s).toFinset = s := by
  ext x
  simp [List.mem_toFinset, mem_keyList]

theorem foldl_replaceStep (g : Graph) (source_id : String) (target_ere : Ere)
    (l : List String) :
    ∀ (P : Finset String),
      l.Nodup → (∀ b ∈ l, b ∈ (g.ere source_id).stmt_ids) → (∀ b ∈ l, b ∉ P) →
      (∀ b ∈ l, ¬((g.stmt b).head_id = source_id ∧ (g.stmt b).tail_id = some source_id)) →
      List.foldl (replaceStep source_id target_ere.id)
          (replDesc g source_id target_ere P) l =
        replDesc g source_id target_ere (P ∪ l.toFinset) := by
  induction l with
  | nil =>
    intro P _ _ _ _
    simp
  | cons b l ih =>
    intro P hnd hmem hP hnl
    simp only [List.foldl_cons]
    rw [replaceStep_desc g source_id target_ere P b (hmem b (by simp)) (hP b (by simp))
      (hnl b (by simp))]
    rw [ih (insert b P) (List.Nodup.of_cons hnd)
      (fun c hc => hmem c (List.mem_cons_of_mem _ hc))
      (fun c hc => by
        rw [Finset.mem_insert]
        push_neg
        refine ⟨?_, hP c (List.mem_cons_of_mem _ hc)⟩
        intro hcb
        subst hcb
        exact (List.nodup_cons.mp hnd).1 hc)
      (fun c hc => hnl c (List.mem_cons_of_mem _ hc))]
    congr 1
    ext s
    simp only [Finset.mem_union, Finset.mem_insert, List.toFinset_cons, List.mem_toFinset]
    tauto

/-- Closed form for `replace_ere` on a graph where the recorded incident
statements of `source_id` carry no self-loop (`head_id == tail_id ==
source_id` would make the Python loop raise `KeyError` on the deleted
`eres[source_id]` entry). -/
theorem replace_ere_eq_desc (g : Graph) (source_id : String) (target_ere : Ere)
    (hnl : ∀ s ∈ (g.ere source_id).stmt_ids,
      ¬((g.stmt s).head_id = source_id ∧ (g.stmt s).tail_id = some source_id)) :
    replace_ere g source_id target_ere =
      replDesc g source_id target_ere (g.ere source_id).stmt_ids := by
  have hbase :
      ({ g with
          ereKeys := insert target_ere.id (g.ereKeys.erase source_id),
          ere := upd g.ere target_ere.id
            { target_ere with
              neighbor_ere_ids := (g.ere source_id).neighbor_ere_ids,
              stmt_ids := (g.ere source_id).stmt_ids } } : Graph) =
        replDesc g source_id target_ere ∅ := by
    refine Graph.ext rfl rfl ?_ ?_
    · funext k
      rw [replDesc_ere]
      simp [replBase]
    · funext s
      rw [replDesc_stmt]
      simp
  show List.foldl (replaceStep source_id target_ere.id) _ (keyList (g.ere source_id).stmt_ids) = _
  rw [hbase, foldl_replaceStep g source_id target_ere (keyList (g.ere source_id).stmt_ids) ∅
    (keyList_nodup _) (fun b hb => mem_keyList.mp hb) (fun b _ => Finset.not_mem_empty b)
    (fun b hb => hnl b (mem_keyList.mp hb))]
  rw [keyList_toFinset]
  congr 1
  exact Finset.empty_union _

theorem mem_endIds {st : Stmt} {x : String} :
    x ∈ st.endIds ↔ st.head_id = x ∨ st.tail_id = some x := by
  cases h : st.tail_id with
  | none => simp [Stmt.endIds, h, eq_comm]
  | some t =>
    simp only [Stmt.endIds, h, Finset.mem_insert, Finset.mem_singleton, Option.some_inj]
    constructor
    · rintro (rfl | rfl)
      · exact Or.inl rfl
      · exact Or.inr rfl
    · rintro (rfl | rfl)
      · exact Or.inl rfl
      · exact Or.inr rfl

theorem replOther_subset (g : Graph) (source_id tid : String) (s : String)
    (hnl : ¬((g.stmt s).head_id = source_id ∧ (g.stmt s).tail_id = some source_id)) :
    replOther g source_id tid s ⊆ (g.stmt s).endIds \ {source_id} := by
  intro x hx
  simp only [replOther] at hx
  rcases Finset.mem_union.mp hx with hx | hx
  · by_cases htail : (g.stmt s).tail_id = some source_id
    · rw [if_pos htail] at hx
      have hhead : (g.stmt s).head_id ≠ source_id := fun h => hnl ⟨h, htail⟩
      have hx' : x = (g.stmt s).head_id := by simpa using hx
      subst hx'
      simp [Finset.mem_sdiff, mem_endIds, hhead]
    · rw [if_neg htail] at hx
      simp at hx
  · by_cases hhead : (g.stmt s).head_id = source_id
    · rw [if_pos hhead] at hx
      have htail : (g.stmt s).tail_id ≠ some source_id := fun h => hnl ⟨hhead, h⟩
      cases ht : (g.stmt s).tail_id with
      | none =>
        rw [ht] at hx
        rw [if_neg (by simp)] at hx
        simp at hx
      | some t =>
        have htne : t ≠ source_id := fun h => htail (by rw [ht, h])
        rw [ht] at hx
        rw [if_neg (by simpa using htne)] at hx
        have hx' : x = t := by simpa using hx
        subst hx'
        simp [Finset.mem_sdiff, mem_endIds, ht, htne]
    · rw [if_neg hhead] at hx
      simp at hx

/-- C10: `replace_ere` is local.  On a graph whose recorded source-node data
satisfies the data-model invariants (every recorded incident statement really
references `source_id`, the recorded neighbour set is exactly the non-self
endpoints of those statements, and none of them is a self-loop, which would
crash the Python loop): (1) every statement whose head and tail both differ
from `source_id` is unchanged in all fields; (2) every statement keeps its
`id`, `label` and `graph_id` (only `head_id`/`tail_id` are ever rewritten);
(3) every node other than `source_id`, `target_ere.id` and `source_id`'s
recorded neighbours keeps both its value and its presence in the graph. -/
theorem replace_ere_frame (g : Graph) (source_id : String) (target_ere : Ere)
    (hnl : ∀ s ∈ (g.ere source_id).stmt_ids,
      ¬((g.stmt s).head_id = source_id ∧ (g.stmt s).tail_id = some source_id))
    (hnbr : ∀ s ∈ (g.ere source_id).stmt_ids,
      (g.stmt s).endIds \ {source_id} ⊆ (g.ere source_id).neighbor_ere_ids) :
    ((∀ s, (g.stmt s).head_id ≠ source_id → (g.stmt s).tail_id ≠ some source_id →
        (replace_ere g source_id target_ere).stmt s = g.stmt s) ∧
      (∀ s, ((replace_ere g source_id target_ere).stmt s).id = (g.stmt s).id ∧
        ((replace_ere g source_id target_ere).stmt s).label = (g.stmt s).label ∧
        ((replace_ere g source_id target_ere).stmt s).graph_id = (g.stmt s).graph_id) ∧
      (∀ k, k ≠ source_id → k ≠ target_ere.id →
        k ∉ (g.ere source_id).neighbor_ere_ids →
        (replace_ere g source_id target_ere).ere k = g.ere k ∧
          (k ∈ (replace_ere g source_id target_ere).ereKeys ↔ k ∈ g.ereKeys))) := by
  rw [replace_ere_eq_desc g source_id target_ere hnl]
  refine ⟨?_, ?_, ?_⟩
  · intro s hhead htail
    rw [replDesc_stmt]
    by_cases hs : s ∈ (g.ere source_id).stmt_ids
    · simp only [Finset.mem_inter, Finset.inter_self, hs, if_pos hs]
      simp [replRewrite, hhead, htail]
    · simp [Finset.mem_inter, hs]
  · intro s
    rw [replDesc_stmt]
    by_cases hs : s ∈ (g.ere source_id).stmt_ids ∩ (g.ere source_id).stmt_ids
    · rw [if_pos hs]
      exact ⟨rfl, rfl, rfl⟩
    · rw [if_neg hs]
      exact ⟨rfl, rfl, rfl⟩
  · intro k hksrc hktid hknbr
    constructor
    · rw [replDesc_ere]
      have hnotT : k ∉ ((g.ere source_id).stmt_ids ∩ (g.ere source_id).stmt_ids).biUnion
          (replOther g source_id target_ere.id) := by
        intro hk
        rcases Finset.mem_biUnion.mp hk with ⟨s, hs, hks⟩
        rw [Finset.inter_self] at hs
        have := replOther_subset g source_id target_ere.id s (hnl s hs) hks
        exact hknbr (hnbr s hs (by exact this))
      rw [if_neg hnotT]
      simp [replBase, upd, hktid]
    · rw [replDesc_ereKeys]
      simp [Finset.mem_insert, Finset.mem_erase, hksrc, hktid]

/-- Witness graph for the Node Merger claims: `xa — xb` plus typing
statements; the replacement target is a fresh node `xt` from another graph. -/
def xa : String := "a"

def xb : String := "b"

def xt : String := "t"

def xs1 : String := "s1"

def xta : String := "ta"

def xtb : String := "tb"

def eEre (i cat gid : String) (nbrs sts : Finset String) : Ere :=
  { id := i, category := cat, graph_id := gid, neighbor_ere_ids := nbrs, stmt_ids := sts }

def eStmt (i h : String) (t : Option String) (lab : List String) (gid : String) : Stmt :=
  { id := i, head_id := h, tail_id := t, label := lab, graph_id := gid }

def Wg10 : Graph :=
  { ereKeys := {xa, xb}, stmtKeys := {xs1, xta, xtb},
    ere := fun k =>
      if k = xa then eEre xa "Event" "G1" {xb} {xs1, xta}
      else eEre xb "Entity" "G1" {xa} {xs1, xtb},
    stmt := fun s =>
      if s = xs1 then eStmt xs1 xa (some xb) ["likes"] "G1"
      else if s = xta then eStmt xta xa none ["EventType"] "G1"
      else eStmt xtb xb none ["EntityType"] "G1" }

def WtEre : Ere := eEre xt "Event" "G2" {xb} {xs1}

/-- Witness for C10: the frame theorem applied to the concrete graph `Wg10`,
replacing node `xa` by the fresh target node `WtEre`. -/
theorem replace_ere_frame_witness :
    ((∀ s, (Wg10.stmt s).head_id ≠ xa → (Wg10.stmt s).tail_id ≠ some xa →
        (replace_ere Wg10 xa WtEre).stmt s = Wg10.stmt s) ∧
      (∀ s, ((replace_ere Wg10 xa WtEre).stmt s).id = (Wg10.stmt s).id ∧
        ((replace_ere Wg10 xa WtEre).stmt s).label = (Wg10.stmt s).label ∧
        ((replace_ere Wg10 xa WtEre).stmt s).graph_id = (Wg10.stmt s).graph_id) ∧
      (∀ k, k ≠ xa → k ≠ WtEre.id →
        k ∉ (Wg10.ere xa).neighbor_ere_ids →
        (replace_ere Wg10 xa WtEre).ere k = Wg10.ere k ∧
          (k ∈ (replace_ere Wg10 xa WtEre).ereKeys ↔ k ∈ Wg10.ereKeys))) :=
  replace_ere_frame Wg10 xa WtEre (by decide) (by decide)

/-- C7 (amended): `replace_ere` maps the set of statements referencing
`source_id` onto the set referencing `target_ere.id` — PROVIDED no retained
statement references `target_ere.id` before the call (which holds whenever
`target_ere.id` is not yet a node of a dangling-free graph, the situation in
every call site of the source).  Hypotheses: the recorded incident set of
`source_id` is sound and complete for the statement table, carries no
self-loop, and `target_ere.id` is unreferenced. -/
theorem replace_ere_refs (g : Graph) (source_id : String) (target_ere : Ere)
    (hsound : ∀ s ∈ (g.ere source_id).stmt_ids,
      s ∈ g.stmtKeys ∧ source_id ∈ (g.stmt s).endIds)
    (hcomplete : ∀ s ∈ g.stmtKeys,
      source_id ∈ (g.stmt s).endIds → s ∈ (g.ere source_id).stmt_ids)
    (hnl : ∀ s ∈ (g.ere source_id).stmt_ids,
      ¬((g.stmt s).head_id = source_id ∧ (g.stmt s).tail_id = some source_id))
    (hfresh : ∀ s ∈ g.stmtKeys, target_ere.id ∉ (g.stmt s).endIds) :
    g.stmtKeys.filter (fun s => source_id ∈ (g.stmt s).endIds) =
      (replace_ere g source_id target_ere).stmtKeys.filter
        (fun s => target_ere.id ∈ ((replace_ere g source_id target_ere).stmt s).endIds) := by
  rw [replace_ere_eq_desc g source_id target_ere hnl]
  rw [replDesc_stmtKeys]
  ext s
  simp only [Finset.mem_filter]
  constructor
  · rintro ⟨hsK, hsrc⟩
    refine ⟨hsK, ?_⟩
    have hsid : s ∈ (g.ere source_id).stmt_ids := hcomplete s hsK hsrc
    rw [replDesc_stmt, Finset.inter_self, if_pos hsid]
    rcases mem_endIds.mp hsrc with hh | ht
    · rw [mem_endIds]
      left
      simp [replRewrite, hh]
    · rw [mem_endIds]
      right
      simp [replRewrite, ht]
  · rintro ⟨hsK, htgt⟩
    refine ⟨hsK, ?_⟩
    by_cases hsid : s ∈ (g.ere source_id).stmt_ids
    · exact (hsound s hsid).2
    · exfalso
      rw [replDesc_stmt, Finset.inter_self, if_neg hsid] at htgt
      exact hfresh s hsK htgt

/-- Witness for the amended C7 on the concrete graph `Wg10` (target node
`WtEre` has the fresh id `xt`). -/
theorem replace_ere_refs_witness :
    Wg10.stmtKeys.filter (fun s => xa ∈ (Wg10.stmt s).endIds) =
      (replace_ere Wg10 xa WtEre).stmtKeys.filter
        (fun s => WtEre.id ∈ ((replace_ere Wg10 xa WtEre).stmt s).endIds) :=
  replace_ere_refs Wg10 xa WtEre (by decide) (by decide) (by decide) (by decide)

/-- Counterexample graph for C7 as frozen: the replacement target is the
*already present* node `xb`, which its own typing statement `xtb` keeps
referencing after the call. -/
def WbEre : Ere := eEre xb "Entity" "G1" {xa} {xs1, xtb}

/-- C7 as frozen is false: replacing `xa` by the node `xb` (present in the
graph) leaves `{xs1, xta}` as the statements that referenced `xa` before,
but `{xs1, xta, xtb}` reference `xb` afterwards — the two sets differ, and
so do their sizes (2 versus 3). -/
theorem replace_ere_refs_counterexample :
    Wg10.stmtKeys.filter (fun s => xa ∈ (Wg10.stmt s).endIds) ≠
      (replace_ere Wg10 xa WbEre).stmtKeys.filter
        (fun s => WbEre.id ∈ ((replace_ere Wg10 xa WbEre).stmt s).endIds) := by
  decide

/-! ## Local query set (`retrieve_related_stmt_ids`, gen_salads.py lines 25-39)

```
def retrieve_related_stmt_ids(graph, root_id, max_num_neigh_ere_ids=2):
    root_ere = graph.eres[root_id]
    neighbor_ere_ids = root_ere.neighbor_ere_ids
    if len(neighbor_ere_ids) > max_num_neigh_ere_ids:
        neighbor_ere_ids = random.sample(neighbor_ere_ids, max_num_neigh_ere_ids)
    stmt_set = set()
    for neighbor_ere_id in neighbor_ere_ids:
        stmt_set.update([stmt_id for stmt_id in graph.eres[root_id].stmt_ids
            if (neighbor_ere_id in [graph.stmts[stmt_id].head_id, graph.stmts[stmt_id].tail_id])
               or (graph.stmts[stmt_id].tail_id is None)])
        stmt_set.update([stmt_id for stmt_id in graph.eres[neighbor_ere_id].stmt_ids
            if graph.stmts[stmt_id].tail_id is None])
    return stmt_set
```

The random subsampling is abstracted by the parameter `chosen`: the list of
neighbour ids the loop iterates (all of `neighbor_ere_ids` when at most
`max_num_neigh_ere_ids` of them exist, otherwise a random sample of that
size).  The theorems below hold for every admissible `chosen`.  Note
`neighbor_ere_id in [head_id, tail_id]` is Python list membership, and
`tail_id` may be `None` there; for a string `n` it means `n == head_id` or
`tail_id == n`. -/

def retrieve_related_stmt_ids (g : Graph) (root_id : String) (chosen : List String) :
    Finset String :=
  chosen.foldl
    (fun stmt_set neighbor_ere_id =>
      (stmt_set ∪
          (g.ere root_id).stmt_ids.filter (fun sid =>
            neighbor_ere_id = (g.stmt sid).head_id ∨
              (g.stmt sid).tail_id = some neighbor_ere_id ∨ (g.stmt sid).tail_id = none)) ∪
        (g.ere neighbor_ere_id).stmt_ids.filter (fun sid => (g.stmt sid).tail_id = none))
    ∅

/-- The query set as C4 words it: every non-typing statement connecting
`root_id` to a selected neighbour, plus every typing statement of `root_id`,
plus every typing statement of each selected neighbour.  (Second, spec-worded
definition, for comparison against the embedded code.) -/
def claimedQuerySet (g : Graph) (root_id : String) (chosen : List String) : Finset String :=
  (g.stmtKeys.filter (fun sid =>
      (g.stmt sid).tail_id ≠ none ∧ root_id ∈ (g.stmt sid).endIds ∧
        ∃ n ∈ chosen, n ∈ (g.stmt sid).endIds)) ∪
    (g.stmtKeys.filter (fun sid =>
      (g.stmt sid).tail_id = none ∧ (g.stmt sid).head_id = root_id)) ∪
    (g.stmtKeys.filter (fun sid =>
      (g.stmt sid).tail_id = none ∧ ∃ n ∈ chosen, (g.stmt sid).head_id = n))

theorem mem_retrieve (g : Graph) (root_id : String) (chosen : List String) (sid : String) :
    sid ∈ retrieve_related_stmt_ids g root_id chosen ↔
      ∃ n ∈ chosen,
        (sid ∈ (g.ere root_id).stmt_ids ∧
          (n = (g.stmt sid).head_id ∨ (g.stmt sid).tail_id = some n ∨
            (g.stmt sid).tail_id = none)) ∨
        (sid ∈ (g.ere n).stmt_ids ∧ (g.stmt sid).tail_id = none) := by
  have hgen : ∀ (l : List String) (acc : Finset String),
      sid ∈ l.foldl
        (fun stmt_set neighbor_ere_id =>
          (stmt_set ∪
              (g.ere root_id).stmt_ids.filter (fun sid =>
                neighbor_ere_id = (g.stmt sid).head_id ∨
                  (g.stmt sid).tail_id = some neighbor_ere_id ∨ (g.stmt sid).tail_id = none)) ∪
            (g.ere neighbor_ere_id).stmt_ids.filter (fun sid => (g.stmt sid).tail_id = none))
        acc ↔
      sid ∈ acc ∨ ∃ n ∈ l,
        (sid ∈ (g.ere root_id).stmt_ids ∧
          (n = (g.stmt sid).head_id ∨ (g.stmt sid).tail_id = some n ∨
            (g.stmt sid).tail_id = none)) ∨
        (sid ∈ (g.ere n).stmt_ids ∧ (g.stmt sid).tail_id = none) := by
    intro l
    induction l with
    | nil => simp
    | cons n l ih =>
      intro acc
      rw [List.foldl_cons, ih]
      simp only [Finset.mem_union, Finset.mem_filter, List.mem_cons]
      constructor
      · rintro (((hacc | h1) | h2) | ⟨m, hm, hrest⟩)
        · exact Or.inl hacc
        · exact Or.inr ⟨n, Or.inl rfl, Or.inl ⟨h1.1, h1.2⟩⟩
        · exact Or.inr ⟨n, Or.inl rfl, Or.inr ⟨h2.1, h2.2⟩⟩
        · exact Or.inr ⟨m, Or.inr hm, hrest⟩
      · rintro (hacc | ⟨m, rfl | hm, hrest⟩)
        · exact Or.inl (Or.inl (Or.inl hacc))
        · rcases hrest with h1 | h2
          · exact Or.inl (Or.inl (Or.inr ⟨h1.1, h1.2⟩))
          · exact Or.inl (Or.inr ⟨h2.1, h2.2⟩)
        · exact Or.inr ⟨m, hm, hrest⟩
  rw [retrieve_related_stmt_ids, hgen]
  simp

/-- C4 as frozen is false on the one-node graph `Wg4`: the root `xr` has no
neighbours, so no neighbour can be selected, the loop body never runs and the
returned query set is empty — while the claim's set contains the root's
typing statement `xtr`. -/
def xr : String := "r"

def xtr : String := "tr"

def Wg4 : Graph :=
  { ereKeys := {xr}, stmtKeys := {xtr},
    ere := fun _ => eEre xr "Event" "G1" ∅ {xtr},
    stmt := fun _ => eStmt xtr xr none ["EventType"] "G1" }

theorem retrieve_related_counterexample :
    (Wg4.ere xr).neighbor_ere_ids = ∅ ∧
      retrieve_related_stmt_ids Wg4 xr [] = ∅ ∧
      xtr ∈ claimedQuerySet Wg4 xr [] := by
  decide

/-- C4 (amended): whenever at least one neighbour is selected, the query set
returned by `retrieve_related_stmt_ids` equals exactly the set described by
the claim; when no neighbour is selected (in particular when `root_id` has no
neighbours), the returned set is empty, so `root_id`'s typing statements are
NOT included in that case.  Hypotheses: the selected neighbours are
neighbours of the root, and the recorded `stmt_ids` of the root and of each
selected neighbour are sound and complete for the statement table. -/
theorem retrieve_related_stmt_ids_spec (g : Graph) (root_id : String)
    (chosen : List String) (hne : chosen ≠ [])
    (hsoundR : ∀ s ∈ (g.ere root_id).stmt_ids, s ∈ g.stmtKeys ∧ root_id ∈ (g.stmt s).endIds)
    (hsoundN : ∀ n ∈ chosen,
      ∀ s ∈ (g.ere n).stmt_ids, s ∈ g.stmtKeys ∧ n ∈ (g.stmt s).endIds)
    (hcomplR : ∀ s ∈ g.stmtKeys, root_id ∈ (g.stmt s).endIds → s ∈ (g.ere root_id).stmt_ids)
    (hcomplN : ∀ n ∈ chosen,
      ∀ s ∈ g.stmtKeys, n ∈ (g.stmt s).endIds → s ∈ (g.ere n).stmt_ids) :
    retrieve_related_stmt_ids g root_id chosen = claimedQuerySet g root_id chosen := by
  ext sid
  rw [mem_retrieve]
  simp only [claimedQuerySet, Finset.mem_union, Finset.mem_filter]
  constructor
  · rintro ⟨n, hn, ⟨hroot, hcond⟩ | ⟨hnbr, htyp⟩⟩
    · have hsr := hsoundR sid hroot
      by_cases htyp : (g.stmt sid).tail_id = none
      · refine Or.inl (Or.inr ⟨hsr.1, htyp, ?_⟩)
        rcases mem_endIds.mp hsr.2 with hh | ht
        · exact hh
        · rw [htyp] at ht
          cases ht
      · refine Or.inl (Or.inl ⟨hsr.1, htyp, hsr.2, n, hn, ?_⟩)
        rcases hcond with hc | hc | hc
        · exact mem_endIds.mpr (Or.inl hc.symm)
        · exact mem_endIds.mpr (Or.inr hc)
        · exact absurd hc htyp
    · have hsn := hsoundN n hn sid hnbr
      refine Or.inr ⟨hsn.1, htyp, n, hn, ?_⟩
      rcases mem_endIds.mp hsn.2 with hh | ht
      · exact hh
      · rw [htyp] at ht
        cases ht
  · rintro ((⟨hK, hnt, hroot, n, hn, hnend⟩ | ⟨hK, htyp, hh⟩) | ⟨hK, htyp, n, hn, hh⟩)
    · refine ⟨n, hn, Or.inl ⟨hcomplR sid hK hroot, ?_⟩⟩
      rcases mem_endIds.mp hnend with hh | ht
      · exact Or.inl hh.symm
      · exact Or.inr (Or.inl ht)
    · rcases List.exists_mem_of_ne_nil chosen hne with ⟨n, hn⟩
      refine ⟨n, hn, Or.inl ⟨?_, Or.inr (Or.inr htyp)⟩⟩
      exact hcomplR sid hK (mem_endIds.mpr (Or.inl hh))
    · refine ⟨n, hn, Or.inr ⟨?_, htyp⟩⟩
      exact hcomplN n hn sid hK (mem_endIds.mpr (Or.inl hh))

/-- Concrete graph for the C4 witness: root `xr2` with one neighbour `xn2`,
one connecting edge, and a typing statement on each node. -/
def xr2 : String := "r"

def xn2 : String := "n"

def xe2 : String := "e"

def xtn2 : String := "tn"

def Wg4b : Graph :=
  { ereKeys := {xr2, xn2}, stmtKeys := {xe2, xtr, xtn2},
    ere := fun k =>
      if k = xr2 then eEre xr2 "Event" "G1" {xn2} {xe2, xtr}
      else eEre xn2 "Entity" "G1" {xr2} {xe2, xtn2},
    stmt := fun s =>
      if s = xe2 then eStmt xe2 xr2 (some xn2) ["arg"] "G1"
      else if s = xtr then eStmt xtr xr2 none ["EventType"] "G1"
      else eStmt xtn2 xn2 none ["EntityType"] "G1" }

/-- Witness for the amended C4: on `Wg4b` with the single neighbour selected,
the code's query set equals the claim's set. -/
theorem retrieve_related_stmt_ids_spec_witness :
    retrieve_related_stmt_ids Wg4b xr2 [xn2] = claimedQuerySet Wg4b xr2 [xn2] :=
  retrieve_related_stmt_ids_spec Wg4b xr2 [xn2] (by decide) (by decide) (by decide)
    (by decide) (by decide)

/-! ## Shared shape: per-node statement deletion loops

Both the duplicate-type resolution of `create_mix` (lines 358-374) and the
typing dedup of `abridge_graph` (lines 83-94) walk over a collection of node
ids and, for the node in hand, compute a set of statement ids to delete, then
remove them from `graph.stmts` and from that node's `stmt_ids`.  `delStep` is
one iteration; `delState` is the closed form after a set `P` of nodes has
been processed, valid because each iteration reads only the statement table
(never modified) and the node's own record. -/

def delStep (delSet : Graph → String → Finset String) (g : Graph) (k : String) : Graph :=
  let dels := delSet g k
  { g with
    stmtKeys := g.stmtKeys \ dels,
    ere := upd g.ere k { g.ere k with stmt_ids := (g.ere k).stmt_ids \ dels } }

def delState (g : Graph) (delSet0 : String → Finset String) (P : Finset String) : Graph :=
  { g with
    stmtKeys := g.stmtKeys \ P.biUnion delSet0,
    ere := fun k =>
      if k ∈ P then { g.ere k with stmt_ids := (g.ere k).stmt_ids \ delSet0 k }
      else g.ere k }

theorem delState_empty (g : Graph) (delSet0 : String → Finset String) :
    delState g delSet0 ∅ = g := by
  refine Graph.ext rfl ?_ ?_ rfl
  · simp [delState]
  · funext k
    simp [delState]

theorem delStep_state (g0 : Graph) (delSet : Graph → String → Finset String)
    (hstable : ∀ (g' : Graph) (k : String), g'.stmt = g0.stmt → g'.ere k = g0.ere k →
      delSet g' k = delSet g0 k)
    (P : Finset String) (a : String) (haP : a ∉ P) :
    delStep delSet (delState g0 (fun k => delSet g0 k) P) a =
      delState g0 (fun k => delSet g0 k) (insert a P) := by
  have hstmt : (delState g0 (fun k => delSet g0 k) P).stmt = g0.stmt := rfl
  have hereA : (delState g0 (fun k => delSet g0 k) P).ere a = g0.ere a := by
    simp [delState, haP]
  have hdel : delSet (delState g0 (fun k => delSet g0 k) P) a = delSet g0 a :=
    hstable _ a hstmt hereA
  refine Graph.ext rfl ?_ ?_ rfl
  · show (g0.stmtKeys \ P.biUnion fun k => delSet g0 k) \
        delSet (delState g0 (fun k => delSet g0 k) P) a = _
    rw [hdel]
    ext s
    simp only [Finset.mem_sdiff, Finset.mem_biUnion, Finset.mem_insert, delState]
    constructor
    · rintro ⟨⟨hs, hnb⟩, hna⟩
      exact ⟨hs, by
        rintro ⟨i, rfl | hi, hsi⟩
        · exact hna hsi
        · exact hnb ⟨i, hi, hsi⟩⟩
    · rintro ⟨hs, hn⟩
      refine ⟨⟨hs, fun h => ?_⟩, fun hsa => hn ⟨a, Or.inl rfl, hsa⟩⟩
      rcases h with ⟨i, hi, hsi⟩
      exact hn ⟨i, Or.inr hi, hsi⟩
  · funext k
    by_cases hk : k = a
    · subst hk
      show upd _ k _ k = _
      rw [upd_same, hereA, hdel]
      simp [delState]
    · show upd _ _ _ k = _
      rw [upd_other _ _ _ hk]
      simp only [delState, Finset.mem_insert]
      by_cases hkP : k ∈ P
      · simp [hkP, hk]
      · simp [hkP, hk]

theorem foldl_delStep (g0 : Graph) (delSet : Graph → String → Finset String)
    (hstable : ∀ (g' : Graph) (k : String), g'.stmt = g0.stmt → g'.ere k = g0.ere k →
      delSet g' k = delSet g0 k)
    (l : List String) :
    ∀ P : Finset String, l.Nodup → (∀ b ∈ l, b ∉ P) →
      List.foldl (delStep delSet) (delState g0 (fun k => delSet g0 k) P) l =
        delState g0 (fun k => delSet g0 k) (P ∪ l.toFinset) := by
  induction l with
  | nil =>
    intro P _ _
    simp
  | cons b l ih =>
    intro P hnd hP
    rw [List.foldl_cons, delStep_state g0 delSet hstable P b (hP b (by simp)),
      ih (insert b P) (List.Nodup.of_cons hnd) (fun c hc => by
        rw [Finset.mem_insert]
        push_neg
        exact ⟨fun hcb => (List.nodup_cons.mp hnd).1 (hcb ▸ hc),
          hP c (List.mem_cons_of_mem _ hc)⟩)]
    congr 1
    ext s
    simp only [Finset.mem_union, Finset.mem_insert, List.toFinset_cons, List.mem_toFinset]
    tauto

theorem foldl_delStep_closed (g0 : Graph) (delSet : Graph → String → Finset String)
    (hstable : ∀ (g' : Graph) (k : String), g'.stmt = g0.stmt → g'.ere k = g0.ere k →
      delSet g' k = delSet g0 k)
    (l : List String) (hnd : l.Nodup) :
    List.foldl (delStep delSet) g0 l = delState g0 (fun k => delSet g0 k) l.toFinset := by
  have h0 := foldl_delStep g0 delSet hstable l ∅ hnd (fun b _ => Finset.not_mem_empty b)
  rw [delState_empty] at h0
  rw [h0, Finset.empty_union]

/-! ## Duplicate-type resolution in `create_mix` (gen_salads.py lines 358-374)

```
for ere_id in mix_point_ere_ids:
    type_stmts = defaultdict(set)
    for (stmt_id, type_label) in [(stmt_id, (' ').join(graph_mix.stmts[stmt_id].label))
          for stmt_id in graph_mix.eres[ere_id].stmt_ids
          if graph_mix.stmts[stmt_id].tail_id is None]:
        type_stmts[type_label].add(stmt_id)
    for key in type_stmts.keys():
        if len(type_stmts[key]) > 1:
            if sample_graphs[target_graph_iter] in [graph_mix.stmts[stmt_id].graph_id
                  for stmt_id in type_stmts[key]]:
                for stmt_id in type_stmts[key]:
                    if graph_mix.stmts[stmt_id].graph_id != sample_graphs[target_graph_iter]:
                        graph_mix.eres[ere_id].stmt_ids.remove(stmt_id)
                        del graph_mix.stmts[stmt_id]
            else:
                for stmt_id in list(type_stmts[key])[1:]:
                    graph_mix.eres[ere_id].stmt_ids.remove(stmt_id)
                    del graph_mix.stmts[stmt_id]
```

The arbitrary set-iteration order only influences which single statement the
`else` branch keeps (`list(...)[0]`); here the head of the canonical
enumeration `keyList` stands in for it, and the claims are insensitive to
the choice. -/

/-- `(' ').join(stmt.label)`. -/
def labelText (st : Stmt) : String := String.intercalate (" ") st.label

/-- `type_stmts[lab]`: the node's typing statements whose joined label text
is `lab`. -/
def typeGroup (g : Graph) (k : String) (lab : String) : Finset String :=
  (g.ere k).stmt_ids.filter (fun s => (g.stmt s).tail_id = none ∧ labelText (g.stmt s) = lab)

/-- The statement ids the loop body deletes from the label-`lab` group at
node `k` (the body of `for key in type_stmts.keys()`). -/
def delOfLab (target_gid : String) (g : Graph) (k lab : String) : Finset String :=
  if 1 < (typeGroup g k lab).card then
    if ∃ s ∈ typeGroup g k lab, (g.stmt s).graph_id = target_gid then
      (typeGroup g k lab).filter (fun s => (g.stmt s).graph_id ≠ target_gid)
    else (typeGroup g k lab).erase ((keyList (typeGroup g k lab)).headD "")
  else ∅

/-- All statement ids the loop body deletes at node `k`. -/
def dupTypeDels (target_gid : String) (g : Graph) (k : String) : Finset String :=
  (((g.ere k).stmt_ids.filter (fun s => (g.stmt s).tail_id = none)).image
      (fun s => labelText (g.stmt s))).biUnion (delOfLab target_gid g k)

/-- Lines 358-374: resolve duplicate typing statements at every merge-point
node in `mps` (the enumeration order of Python's `mix_point_ere_ids` set). -/
def resolveDupTypes (target_gid : String) (mps : List String) (g : Graph) : Graph :=
  mps.foldl (delStep (dupTypeDels target_gid)) g

theorem dupTypeDels_stable (target_gid : String) (g0 : Graph) :
    ∀ (g' : Graph) (k : String), g'.stmt = g0.stmt → g'.ere k = g0.ere k →
      dupTypeDels target_gid g' k = dupTypeDels target_gid g0 k := by
  intro g' k hstmt here
  unfold dupTypeDels delOfLab typeGroup
  rw [hstmt, here]

theorem delOfLab_subset_group (target_gid : String) (g : Graph) (k lab : String) :
    delOfLab target_gid g k lab ⊆ typeGroup g k lab := by
  intro s hs
  unfold delOfLab at hs
  by_cases h1 : 1 < (typeGroup g k lab).card
  · rw [if_pos h1] at hs
    by_cases h2 : ∃ s ∈ typeGroup g k lab, (g.stmt s).graph_id = target_gid
    · rw [if_pos h2] at hs
      exact Finset.filter_subset _ _ hs
    · rw [if_neg h2] at hs
      exact Finset.erase_subset _ _ hs
  · rw [if_neg h1] at hs
    exact absurd hs (Finset.not_mem_empty s)

theorem mem_typeGroup_label {g : Graph} {k lab s : String}
    (hs : s ∈ typeGroup g k lab) : labelText (g.stmt s) = lab :=
  (Finset.mem_filter.mp hs).2.2

theorem sdiff_self_erase {s : Finset String} {a : String} (ha : a ∈ s) :
    s \ s.erase a = {a} := by
  ext x
  simp only [Finset.mem_sdiff, Finset.mem_erase, Finset.mem_singleton]
  constructor
  · rintro ⟨hx, hne⟩
    by_contra hxa
    exact hne ⟨hxa, hx⟩
  · rintro rfl
    exact ⟨ha, fun h => h.1 rfl⟩

theorem headD_mem_keyList {s : Finset String} (hs : s.Nonempty) :
    (keyList s).headD "" ∈ s := by
  rcases hs with ⟨x, hx⟩
  have hxl : x ∈ keyList s := mem_keyList.mpr hx
  cases hl : keyList s with
  | nil => rw [hl] at hxl; cases hxl
  | cons b l =>
    have hb : b ∈ keyList s := by
      rw [hl]
      simp
    simpa using mem_keyList.mp hb

theorem filter_sdiff_comm (S D : Finset String) (p : String → Prop) [DecidablePred p] :
    (S \ D).filter p = S.filter p \ D := by
  ext x
  simp only [Finset.mem_filter, Finset.mem_sdiff]
  tauto

theorem group_sdiff_dels (target_gid : String) (g : Graph) (k lab : String) :
    typeGroup g k lab \ dupTypeDels target_gid g k =
      typeGroup g k lab \ delOfLab target_gid g k lab := by
  ext s
  simp only [Finset.mem_sdiff, and_congr_right_iff]
  intro hsG
  unfold dupTypeDels
  rw [Finset.mem_biUnion]
  constructor
  · intro hn hc
    refine hn ⟨lab, ?_, hc⟩
    have hsS := (Finset.mem_filter.mp hsG).1
    have hstyp := (Finset.mem_filter.mp hsG).2.1
    exact Finset.mem_image.mpr ⟨s, Finset.mem_filter.mpr ⟨hsS, hstyp⟩,
      mem_typeGroup_label hsG⟩
  · rintro hn ⟨lab2, _, hsl2⟩
    have : lab2 = lab := by
      have h2 := mem_typeGroup_label (delOfLab_subset_group target_gid g k lab2 hsl2)
      rw [← h2, mem_typeGroup_label hsG]
    subst this
    exact hn hsl2

theorem resolveDupTypes_stmt (target_gid : String) (mps : List String) (g : Graph)
    (hnd : mps.Nodup) :
    (resolveDupTypes target_gid mps g).stmt = g.stmt := by
  rw [resolveDupTypes,
    foldl_delStep_closed g _ (dupTypeDels_stable target_gid g) mps hnd]
  rfl

theorem resolveDupTypes_stmt_ids (target_gid : String) (mps : List String) (g : Graph)
    (hnd : mps.Nodup) (k : String) (hk : k ∈ mps) :
    ((resolveDupTypes target_gid mps g).ere k).stmt_ids =
      (g.ere k).stmt_ids \ dupTypeDels target_gid g k := by
  rw [resolveDupTypes,
    foldl_delStep_closed g _ (dupTypeDels_stable target_gid g) mps hnd]
  simp [delState, List.mem_toFinset, hk]

/-- C1: after duplicate-type resolution, every merge-point node retains at
most one typing statement per distinct label text, and whenever the target
graph contributed a typing statement with that label (necessarily unique, by
the data-model invariant of one typing statement per node per contributing
graph, hypothesis `htgt`), the surviving statement of that label is exactly
the target graph's one.  `hhead` is the data-model fact that typing
statements recorded on a node have that node as head — it is what makes the
per-node deletions non-interfering (deleting the same statement id twice
would make Python's `del graph_mix.stmts[stmt_id]` raise). -/
theorem resolveDupTypes_spec (target_gid : String) (mps : List String) (g : Graph)
    (hnd : mps.Nodup)
    (_hhead : ∀ k ∈ mps, ∀ s ∈ (g.ere k).stmt_ids,
      (g.stmt s).tail_id = none → (g.stmt s).head_id = k)
    (htgt : ∀ k ∈ mps,
      ∀ lab ∈ ((g.ere k).stmt_ids.filter (fun s => (g.stmt s).tail_id = none)).image
        (fun s => labelText (g.stmt s)),
      ((typeGroup g k lab).filter (fun s => (g.stmt s).graph_id = target_gid)).card ≤ 1) :
    ∀ k ∈ mps, ∀ lab : String,
      (((resolveDupTypes target_gid mps g).ere k).stmt_ids.filter
          (fun s => ((resolveDupTypes target_gid mps g).stmt s).tail_id = none ∧
            labelText ((resolveDupTypes target_gid mps g).stmt s) = lab)).card ≤ 1 ∧
        (∀ s0 ∈ typeGroup g k lab, (g.stmt s0).graph_id = target_gid →
          ((resolveDupTypes target_gid mps g).ere k).stmt_ids.filter
            (fun s => ((resolveDupTypes target_gid mps g).stmt s).tail_id = none ∧
              labelText ((resolveDupTypes target_gid mps g).stmt s) = lab) = {s0}) := by
  intro k hk lab
  have hstmt := resolveDupTypes_stmt target_gid mps g hnd
  have hfinal :
      ((resolveDupTypes target_gid mps g).ere k).stmt_ids.filter
        (fun s => ((resolveDupTypes target_gid mps g).stmt s).tail_id = none ∧
          labelText ((resolveDupTypes target_gid mps g).stmt s) = lab) =
      typeGroup g k lab \ delOfLab target_gid g k lab := by
    rw [resolveDupTypes_stmt_ids target_gid mps g hnd k hk, hstmt, filter_sdiff_comm]
    show typeGroup g k lab \ _ = _
    exact group_sdiff_dels target_gid g k lab
  rw [hfinal]
  by_cases h1 : 1 < (typeGroup g k lab).card
  · have hne : (typeGroup g k lab).Nonempty := by
      rcases Finset.card_pos.mp (Nat.lt_of_lt_of_le Nat.zero_lt_one (Nat.le_of_lt h1)) with ⟨x, hx⟩
      exact ⟨x, hx⟩
    have hlab : lab ∈ ((g.ere k).stmt_ids.filter (fun s => (g.stmt s).tail_id = none)).image
        (fun s => labelText (g.stmt s)) := by
      rcases hne with ⟨x, hx⟩
      have hxS := (Finset.mem_filter.mp hx).1
      have hxT := (Finset.mem_filter.mp hx).2.1
      exact Finset.mem_image.mpr ⟨x, Finset.mem_filter.mpr ⟨hxS, hxT⟩, mem_typeGroup_label hx⟩
    by_cases h2 : ∃ s ∈ typeGroup g k lab, (g.stmt s).graph_id = target_gid
    · have hdel : delOfLab target_gid g k lab =
          (typeGroup g k lab).filter (fun s => (g.stmt s).graph_id ≠ target_gid) := by
        unfold delOfLab
        rw [if_pos h1, if_pos h2]
      have hsurv : typeGroup g k lab \ delOfLab target_gid g k lab =
          (typeGroup g k lab).filter (fun s => (g.stmt s).graph_id = target_gid) := by
        rw [hdel]
        ext x
        simp only [Finset.mem_sdiff, Finset.mem_filter, not_and, not_not]
        constructor
        · rintro ⟨hx, hnx⟩
          exact ⟨hx, by
            by_contra hxt
            exact hxt (hnx hx)⟩
        · rintro ⟨hx, hxt⟩
          exact ⟨hx, fun _ => hxt⟩
      rw [hsurv]
      refine ⟨htgt k hk lab hlab, ?_⟩
      intro s0 hs0 hgid0
      have hs0' : s0 ∈ (typeGroup g k lab).filter (fun s => (g.stmt s).graph_id = target_gid) :=
        Finset.mem_filter.mpr ⟨hs0, hgid0⟩
      refine Finset.eq_singleton_iff_unique_mem.mpr ⟨hs0', ?_⟩
      intro x hx
      have hcard := htgt k hk lab hlab
      exact Finset.card_le_one.mp hcard x hx s0 hs0'
    · have hhd : (keyList (typeGroup g k lab)).headD "" ∈ typeGroup g k lab :=
        headD_mem_keyList hne
      have hdel : delOfLab target_gid g k lab =
          (typeGroup g k lab).erase ((keyList (typeGroup g k lab)).headD "") := by
        unfold delOfLab
        rw [if_pos h1, if_neg h2]
      rw [hdel, sdiff_self_erase hhd]
      refine ⟨by simp, ?_⟩
      intro s0 hs0 hgid0
      exact absurd ⟨s0, hs0, hgid0⟩ h2
  · have hdel : delOfLab target_gid g k lab = ∅ := by
      unfold delOfLab
      rw [if_neg h1]
    rw [hdel, Finset.sdiff_empty]
    refine ⟨Nat.le_of_not_lt h1, ?_⟩
    intro s0 hs0 hgid0
    refine Finset.eq_singleton_iff_unique_mem.mpr ⟨hs0, ?_⟩
    intro x hx
    exact Finset.card_le_one.mp (Nat.le_of_not_lt h1) x hx s0 hs0

/-- Witness graph for C1: merge point `ym` carries two same-label typing
statements from graphs A and C (C is the target) and one different-label
typing statement from graph B. -/
def ym : String := "m"

def yt1 : String := "t1"

def yt2 : String := "t2"

def yt3 : String := "t3"

def gidC : String := "C"

def Wg1 : Graph :=
  { ereKeys := {ym}, stmtKeys := {yt1, yt2, yt3},
    ere := fun _ => eEre ym "Event" gidC ∅ {yt1, yt2, yt3},
    stmt := fun s =>
      if s = yt1 then eStmt yt1 ym none ["Conflict", "Attack"] "A"
      else if s = yt2 then eStmt yt2 ym none ["Conflict", "Attack"] gidC
      else eStmt yt3 ym none ["Life", "Die"] "B" }

/-- Witness for C1: `resolveDupTypes_spec` applied to the concrete graph
`Wg1` with target graph `gidC`, the single merge point `ym`, the label text
of the duplicated type, and the target graph's statement `yt2`. -/
theorem resolveDupTypes_spec_witness :
    (((resolveDupTypes gidC [ym] Wg1).ere ym).stmt_ids.filter
        (fun s => ((resolveDupTypes gidC [ym] Wg1).stmt s).tail_id = none ∧
          labelText ((resolveDupTypes gidC [ym] Wg1).stmt s) =
            ("Conflict Attack"))).card ≤ 1 ∧
      ((resolveDupTypes gidC [ym] Wg1).ere ym).stmt_ids.filter
          (fun s => ((resolveDupTypes gidC [ym] Wg1).stmt s).tail_id = none ∧
            labelText ((resolveDupTypes gidC [ym] Wg1).stmt s) =
              ("Conflict Attack")) = {yt2} :=
  ⟨(resolveDupTypes_spec gidC [ym] Wg1 (by decide) (by decide) (by decide) ym
      (by decide) ("Conflict Attack")).1,
    (resolveDupTypes_spec gidC [ym] Wg1 (by decide) (by decide) (by decide) ym
      (by decide) ("Conflict Attack")).2 yt2 (by decide) (by decide)⟩

/-! ## Merge-point selector (`get_query_points`, gen_salads.py lines 157-203)

The Python function iterates two sets in arbitrary order — `shared_names`
and, inside `itertools.product`, the per-graph candidate sets
`name_to_ere_dict[graph_id][name]` — and its output depends on those orders
only through tie-breaks.  The embedding abstracts them as the parameters
`nameOrder` (an enumeration of `shared_names`) and `enum` (an enumeration of
each per-graph candidate set); the C6 theorem holds for every enumeration,
hence for whatever order Python happens to use. -/

/-- `ere_id.split('_h')[0]`: the text before the first occurrence of the
separator `_h`, or the whole string if it never occurs. -/
def splitSourceAux : List Char → List Char
  | [] => []
  | c :: rest => if c = '_' ∧ rest.head? = some ('h') then [] else c :: splitSourceAux rest

def splitSource (s : String) : String := String.mk (splitSourceAux s.data)

/-- `set.intersection(*[src_to_name_map[item] for item in sample_graphs])`
(line 159).  Python raises `TypeError` on an empty argument list; the `[]`
case is unreachable under `num_sources ≥ 1`. -/
def sharedNames (sample_graphs : List String) (src_to_name_map : String → Finset String) :
    Finset String :=
  match sample_graphs with
  | [] => ∅
  | gid :: rest => rest.foldl (fun acc x => acc ∩ src_to_name_map x) (src_to_name_map gid)

/-- `itertools.product` over per-graph candidate lists (rightmost factor
varies fastest, matching Python's iteration order). -/
def listProd {α : Type} : List (List α) → List (List α)
  | [] => [[]]
  | xs :: rest => (xs.map (fun x => (listProd rest).map (fun c => x :: c))).flatten

/-- `sum([sub_item[1] for sub_item in item])`: the summed two-step
connectedness of a merge combination. -/
def comboScore (combo : List (String × Nat)) : Nat := (combo.map Prod.snd).sum

/-- Insertion step of the descending sort modelling Python's
`sorted(..., reverse=True)` (ties resolved arbitrarily, which is all the
claims need). -/
def insByDesc {α : Type} (score : α → Nat) (x : α) : List α → List α
  | [] => [x]
  | y :: ys => if score y ≤ score x then x :: y :: ys else y :: insByDesc score x ys

def sortByDesc {α : Type} (score : α → Nat) : List α → List α
  | [] => []
  | x :: xs => insByDesc score x (sortByDesc score xs)

/-- `set.intersection(*[ere_type_maps[e] for e in nodes])` (line 197); the
`[]` case is Python's `TypeError`, unreachable for nonempty combinations. -/
def typeInter (tm : String → Finset String) : List String → Finset String
  | [] => ∅
  | e :: rest => rest.foldl (fun acc x => acc ∩ tm x) (tm e)

/-- The greedy selection loop of lines 189-202: walk the globally ranked
list, skip a combination when its fresh-node count differs from
`num_sources` or when its nodes share no ontology type, otherwise accept it
and claim its nodes. -/
def greedyQP (num_sources : Nat) (ere_type_maps : String → Finset String) :
    List (String × List (String × Nat)) → Finset String →
      List (String × List (String × Nat))
  | [], _ => []
  | item :: rest, seen_eres =>
    if ((item.2.map Prod.fst).toFinset \ seen_eres).card ≠ num_sources then
      greedyQP num_sources ere_type_maps rest seen_eres
    else if typeInter ere_type_maps (item.2.map Prod.fst) = ∅ then
      greedyQP num_sources ere_type_maps rest seen_eres
    else item :: greedyQP num_sources ere_type_maps rest
      (seen_eres ∪ (item.2.map Prod.fst).toFinset)

/-- Lines 157-203.  `nameOrder` enumerates `shared_names`; `enum gid name`
enumerates `name_to_ere_dict[gid][name]` (pairs of ere id and two-step
connectedness); `max_connectedness_two_step = 0` is Python's falsy "no cap".
-/
def get_query_points (sample_graphs : List String) (nameOrder : List String)
    (enum : String → String → List (String × Nat)) (num_sources : Nat)
    (max_connectedness_two_step : Nat) (ere_type_maps : String → Finset String) :
    List (String × List (String × Nat)) :=
  let merge_comb := fun name =>
    let combos := listProd (sample_graphs.map (fun gid => enum gid name))
    if max_connectedness_two_step ≠ 0 then
      combos.filter (fun c => comboScore c ≤ max_connectedness_two_step)
    else combos
  let super_ranked_list :=
    sortByDesc (fun x => comboScore x.2)
      (nameOrder.filterMap (fun name =>
        if (merge_comb name).length = 0 then none
        else some (name, (sortByDesc comboScore (merge_comb name)).headD [])))
  greedyQP num_sources ere_type_maps super_ranked_list ∅

theorem insByDesc_perm {α : Type} (score : α → Nat) (x : α) (l : List α) :
    (insByDesc score x l).Perm (x :: l) := by
  induction l with
  | nil => simp [insByDesc]
  | cons y ys ih =>
    by_cases h : score y ≤ score x
    · simp [insByDesc, h]
    · simp only [insByDesc, if_neg h]
      exact (List.Perm.cons y ih).trans (List.Perm.swap x y ys)

theorem sortByDesc_perm {α : Type} (score : α → Nat) (l : List α) :
    (sortByDesc score l).Perm l := by
  induction l with
  | nil => simp [sortByDesc]
  | cons x xs ih =>
    exact (insByDesc_perm score x (sortByDesc score xs)).trans (List.Perm.cons x ih)

theorem insByDesc_sorted {α : Type} (score : α → Nat) (x : α) {l : List α}
    (h : l.Pairwise (fun a b => score b ≤ score a)) :
    (insByDesc score x l).Pairwise (fun a b => score b ≤ score a) := by
  induction l with
  | nil => simp [insByDesc]
  | cons y ys ih =>
    by_cases hxy : score y ≤ score x
    · simp only [insByDesc, if_pos hxy]
      refine List.Pairwise.cons ?_ h
      intro z hz
      rw [List.mem_cons] at hz
      rcases hz with rfl | hz
      · exact hxy
      · exact le_trans (List.rel_of_pairwise_cons h hz) hxy
    · simp only [insByDesc, if_neg hxy]
      have hyx : score x ≤ score y := le_of_not_le hxy
      refine List.Pairwise.cons ?_ (ih (List.Pairwise.of_cons h))
      intro z hz
      have hz' := (insByDesc_perm score x ys).mem_iff.mp hz
      rw [List.mem_cons] at hz'
      rcases hz' with rfl | hz'
      · exact hyx
      · exact List.rel_of_pairwise_cons h hz'

theorem sortByDesc_sorted {α : Type} (score : α → Nat) (l : List α) :
    (sortByDesc score l).Pairwise (fun a b => score b ≤ score a) := by
  induction l with
  | nil => simp [sortByDesc]
  | cons x xs ih => exact insByDesc_sorted score x ih

theorem listProd_length {α : Type} (ls : List (List α)) :
    ∀ c ∈ listProd ls, c.length = ls.length := by
  induction ls with
  | nil =>
    intro c hc
    simp [listProd] at hc
    simp [hc]
  | cons xs rest ih =>
    intro c hc
    simp only [listProd, List.mem_flatten, List.mem_map] at hc
    rcases hc with ⟨sub, ⟨x, _, rfl⟩, hc⟩
    rcases List.mem_map.mp hc with ⟨tail, htail, rfl⟩
    simp [ih tail htail]

theorem mem_typeInter {tm : String → Finset String} {x e : String} {rest : List String} :
    x ∈ typeInter tm (e :: rest) ↔ ∀ e' ∈ e :: rest, x ∈ tm e' := by
  unfold typeInter
  have hgen : ∀ (l : List String) (acc : Finset String),
      x ∈ l.foldl (fun acc y => acc ∩ tm y) acc ↔ x ∈ acc ∧ ∀ e' ∈ l, x ∈ tm e' := by
    intro l
    induction l with
    | nil => simp
    | cons y ys ih =>
      intro acc
      rw [List.foldl_cons, ih]
      simp only [Finset.mem_inter, List.mem_cons]
      constructor
      · rintro ⟨⟨ha, hy⟩, hys⟩
        exact ⟨ha, by
          rintro e' (rfl | he')
          · exact hy
          · exact hys e' he'⟩
      · rintro ⟨ha, hall⟩
        exact ⟨⟨ha, hall y (Or.inl rfl)⟩, fun e' he' => hall e' (Or.inr he')⟩
  rw [hgen]
  simp only [List.mem_cons]
  constructor
  · rintro ⟨he, hrest⟩
    rintro e' (rfl | he')
    · exact he
    · exact hrest e' he'
  · intro hall
    exact ⟨hall e (Or.inl rfl), fun e' he' => hall e' (Or.inr he')⟩

theorem greedyQP_sublist (ns : Nat) (tm : String → Finset String) :
    ∀ (l : List (String × List (String × Nat))) (seen : Finset String),
      (greedyQP ns tm l seen).Sublist l := by
  intro l
  induction l with
  | nil =>
    intro seen
    simp [greedyQP]
  | cons item rest ih =>
    intro seen
    unfold greedyQP
    by_cases h1 : ((item.2.map Prod.fst).toFinset \ seen).card ≠ ns
    · rw [if_pos h1]
      exact (ih seen).trans (List.sublist_cons_self item rest)
    · rw [if_neg h1]
      by_cases h2 : typeInter tm (item.2.map Prod.fst) = ∅
      · rw [if_pos h2]
        exact (ih seen).trans (List.sublist_cons_self item rest)
      · rw [if_neg h2]
        exact List.Sublist.cons₂ item (ih _)

theorem greedyQP_spec (ns : Nat) (tm : String → Finset String) :
    ∀ (l : List (String × List (String × Nat))) (seen : Finset String),
      (∀ item ∈ l, item.2.length = ns) →
      ((greedyQP ns tm l seen).Pairwise (fun p q =>
          Disjoint (p.2.map Prod.fst).toFinset (q.2.map Prod.fst).toFinset) ∧
        ∀ qp ∈ greedyQP ns tm l seen,
          Disjoint (qp.2.map Prod.fst).toFinset seen ∧
            ((qp.2.map Prod.fst).toFinset).card = ns ∧
            typeInter tm (qp.2.map Prod.fst) ≠ ∅) := by
  intro l
  induction l with
  | nil =>
    intro seen _
    constructor
    · simp [greedyQP]
    · intro qp hqp
      simp [greedyQP] at hqp
  | cons item rest ih =>
    intro seen hlen
    have hlenrest : ∀ it ∈ rest, it.2.length = ns :=
      fun it hit => hlen it (List.mem_cons_of_mem _ hit)
    unfold greedyQP
    by_cases h1 : ((item.2.map Prod.fst).toFinset \ seen).card ≠ ns
    · rw [if_pos h1]
      exact ih seen hlenrest
    · rw [if_neg h1]
      by_cases h2 : typeInter tm (item.2.map Prod.fst) = ∅
      · rw [if_pos h2]
        exact ih seen hlenrest
      · rw [if_neg h2]
        push_neg at h1
        have hNcardle : ((item.2.map Prod.fst).toFinset).card ≤ ns := by
          calc ((item.2.map Prod.fst).toFinset).card ≤ (item.2.map Prod.fst).length :=
                List.toFinset_card_le _
            _ = item.2.length := List.length_map _ _
            _ = ns := hlen item (List.mem_cons_self item rest)
        have hsdiff : (item.2.map Prod.fst).toFinset \ seen = (item.2.map Prod.fst).toFinset :=
          Finset.eq_of_subset_of_card_le Finset.sdiff_subset (by rw [h1]; exact hNcardle)
        have hdisj_seen : Disjoint (item.2.map Prod.fst).toFinset seen := by
          rw [Finset.disjoint_left]
          intro x hx hxseen
          have : x ∈ (item.2.map Prod.fst).toFinset \ seen := hsdiff.symm ▸ hx
          exact (Finset.mem_sdiff.mp this).2 hxseen
        have hNcard : ((item.2.map Prod.fst).toFinset).card = ns := by
          rw [← hsdiff, h1]
        obtain ⟨ihpair, ihmem⟩ := ih (seen ∪ (item.2.map Prod.fst).toFinset) hlenrest
        constructor
        · refine List.Pairwise.cons ?_ ihpair
          intro q hq
          have hdq := (ihmem q hq).1
          rw [Finset.disjoint_union_right] at hdq
          exact hdq.2.symm
        · intro qp hqp
          rw [List.mem_cons] at hqp
          rcases hqp with rfl | hqp
          · exact ⟨hdisj_seen, hNcard, h2⟩
          · obtain ⟨hd, hc, ht⟩ := ihmem qp hqp
            rw [Finset.disjoint_union_right] at hd
            exact ⟨hd.1, hc, ht⟩

theorem headD_mem {α : Type} (l : List α) (d : α) (h : l ≠ []) : l.headD d ∈ l := by
  cases l with
  | nil => exact absurd rfl h
  | cons x xs => simp

/-- C6: for every input to `get_query_points` with `sample_graphs` listing
the `num_sources ≥ 1` chosen source-graph ids (as the selector's contract
requires), and for every enumeration order of the Python sets involved
(`nameOrder` for `shared_names`, `enum` for each per-graph candidate set,
tied to the function's real inputs by `hname`/`henum`): the accepted
combinations have pairwise disjoint node sets, every accepted combination's
nodes share at least one ontology type, and accepted combinations come out
in descending order of summed two-step connectedness (the scores stored in
the candidate pairs). -/
theorem get_query_points_spec (sample_graphs : List String) (nameOrder : List String)
    (enum : String → String → List (String × Nat)) (num_sources : Nat)
    (cap : Nat) (ere_type_maps : String → Finset String)
    (name_dict : String → Finset String) (src_to_name_map : String → Finset String)
    (two_step : String → Nat)
    (hlen : sample_graphs.length = num_sources)
    (hns : 0 < num_sources)
    (_hname : nameOrder.Nodup ∧
      nameOrder.toFinset = sharedNames sample_graphs src_to_name_map)
    (_henum : ∀ gid ∈ sample_graphs, ∀ name ∈ nameOrder,
      (enum gid name).Nodup ∧ (enum gid name).toFinset =
        ((name_dict name).filter (fun e => splitSource e = gid)).image
          (fun e => (e, two_step e))) :
    (get_query_points sample_graphs nameOrder enum num_sources cap
        ere_type_maps).Pairwise (fun p q =>
          Disjoint (p.2.map Prod.fst).toFinset (q.2.map Prod.fst).toFinset) ∧
      (∀ qp ∈ get_query_points sample_graphs nameOrder enum num_sources cap ere_type_maps,
        ∃ ty, ∀ e ∈ qp.2.map Prod.fst, ty ∈ ere_type_maps e) ∧
      ((get_query_points sample_graphs nameOrder enum num_sources cap
          ere_type_maps).map (fun qp => comboScore qp.2)).Pairwise
        (fun a b => b ≤ a) := by
  classical
  set mergeComb := fun name =>
    let combos := listProd (sample_graphs.map (fun gid => enum gid name))
    if cap ≠ 0 then combos.filter (fun c => comboScore c ≤ cap) else combos with hmc
  set SUPER := sortByDesc (fun x : String × List (String × Nat) => comboScore x.2)
    (nameOrder.filterMap (fun name =>
      if (mergeComb name).length = 0 then none
      else some (name, (sortByDesc comboScore (mergeComb name)).headD []))) with hsuper
  have hrfl : get_query_points sample_graphs nameOrder enum num_sources cap ere_type_maps =
      greedyQP num_sources ere_type_maps SUPER ∅ := rfl
  have hcombolen : ∀ name, ∀ c ∈ mergeComb name, c.length = num_sources := by
    intro name c hc
    have hc' : c ∈ listProd (sample_graphs.map (fun gid => enum gid name)) := by
      rw [hmc] at hc
      simp only at hc
      by_cases hcap : cap ≠ 0
      · rw [if_pos hcap] at hc
        exact List.mem_of_mem_filter hc
      · rw [if_neg hcap] at hc
        exact hc
    have := listProd_length _ c hc'
    rw [this, List.length_map, hlen]
  have hsuperlen : ∀ item ∈ SUPER, item.2.length = num_sources := by
    intro item hitem
    have hitem' := (sortByDesc_perm
      (fun x : String × List (String × Nat) => comboScore x.2) _).mem_iff.mp hitem
    rcases List.mem_filterMap.mp hitem' with ⟨name, _, hf⟩
    by_cases hempty : (mergeComb name).length = 0
    · rw [if_pos hempty] at hf
      cases hf
    · rw [if_neg hempty] at hf
      have hne : sortByDesc comboScore (mergeComb name) ≠ [] := by
        intro h
        have := (sortByDesc_perm comboScore (mergeComb name)).length_eq
        rw [h] at this
        exact hempty this.symm
      have hhead : (sortByDesc comboScore (mergeComb name)).headD [] ∈ mergeComb name :=
        (sortByDesc_perm comboScore (mergeComb name)).mem_iff.mp
          (headD_mem _ [] hne)
      have := hcombolen name _ hhead
      cases hf
      simpa using this
  obtain ⟨hpair, hmem⟩ := greedyQP_spec num_sources ere_type_maps SUPER ∅ hsuperlen
  rw [hrfl]
  refine ⟨hpair, ?_, ?_⟩
  · intro qp hqp
    obtain ⟨_, hcard, hti⟩ := hmem qp hqp
    have hlist : qp.2.map Prod.fst ≠ [] := by
      intro h
      have hl : (qp.2.map Prod.fst).toFinset.card = 0 := by
        rw [h]
        simp
      rw [hcard] at hl
      omega
    obtain ⟨e, rest, hnodes⟩ : ∃ e rest, qp.2.map Prod.fst = e :: rest := by
      cases h : qp.2.map Prod.fst with
      | nil => exact absurd h hlist
      | cons e rest => exact ⟨e, rest, rfl⟩
    rw [hnodes] at hti ⊢
    rcases Finset.nonempty_iff_ne_empty.mpr hti with ⟨ty, hty⟩
    exact ⟨ty, mem_typeInter.mp hty⟩
  · have hsorted : SUPER.Pairwise (fun p q => comboScore q.2 ≤ comboScore p.2) :=
      sortByDesc_sorted _ _
    have hsub := greedyQP_sublist num_sources ere_type_maps SUPER ∅
    have := hsorted.sublist hsub
    rw [List.pairwise_map]
    exact this

/-- Concrete inputs for the C6 witness: two source graphs sharing one event
name with one candidate node each. -/
def qg1 : String := "g1"

def qg2 : String := "g2"

def qe1 : String := "g1_h1"

def qe2 : String := "g2_h1"

def qname : String := "bomb"

def qNameDict : String → Finset String := fun n => if n = qname then {qe1, qe2} else ∅

def qSrcToName : String → Finset String := fun g =>
  if g = qg1 ∨ g = qg2 then {qname} else ∅

def qTwoStep : String → Nat := fun _ => 3

def qEnum : String → String → List (String × Nat) := fun g n =>
  if n = qname then
    (if g = qg1 then [(qe1, 3)] else if g = qg2 then [(qe2, 3)] else [])
  else []

def qTypes : String → Finset String := fun _ => {"PER"}

/-- Witness for C6: `get_query_points_spec` applied to the concrete inputs
above (two graphs, one shared name, cap 60). -/
theorem get_query_points_spec_witness :
    (get_query_points [qg1, qg2] [qname] qEnum 2 60 qTypes).Pairwise (fun p q =>
        Disjoint (p.2.map Prod.fst).toFinset (q.2.map Prod.fst).toFinset) ∧
      (∀ qp ∈ get_query_points [qg1, qg2] [qname] qEnum 2 60 qTypes,
        ∃ ty, ∀ e ∈ qp.2.map Prod.fst, ty ∈ qTypes e) ∧
      ((get_query_points [qg1, qg2] [qname] qEnum 2 60 qTypes).map
          (fun qp => comboScore qp.2)).Pairwise (fun a b => b ≤ a) :=
  get_query_points_spec [qg1, qg2] [qname] qEnum 2 60 qTypes qNameDict qSrcToName qTwoStep
    (by decide) (by decide) (by decide) (by decide)

/-! ## Candidate targets and the novelty loop (C5)

`get_possible_target_graph_ids` (gen_salads.py lines 205-225) enumerates the
sampled graphs and accepts graph `i` as a candidate target when every later
event merge point is `reachable` from the first one inside that graph,
accumulating the summed two-step connectedness.  List indexing out of range
would raise `IndexError` in Python; the embedding's `getD` defaults are
unreachable at the call site (`query_points` has `num_shared_eres ≥ 1`
entries, each combination one entry per sampled graph). -/

def possEntry (graph_list : String → Graph) (sample_graphs : List String)
    (query_points : List (String × List (String × Nat))) (graph_iter : Nat) :
    Option (Nat × String × Nat) :=
  let graph_id := sample_graphs.getD graph_iter ""
  let entry := fun name_iter =>
    ((query_points.getD name_iter ("", [])).2).getD graph_iter ("", 0)
  if (List.range query_points.length).all (fun name_iter =>
      decide (name_iter = 0) ||
        reachableB (graph_list graph_id) (entry 0).1 (entry name_iter).1) then
    some (graph_iter, graph_id,
      ((List.range query_points.length).map (fun name_iter => (entry name_iter).2)).sum)
  else none

def get_possible_target_graph_ids (graph_list : String → Graph)
    (sample_graphs : List String)
    (query_points : List (String × List (String × Nat))) : List (Nat × String × Nat) :=
  (List.range sample_graphs.length).filterMap
    (possEntry graph_list sample_graphs query_points)

/-- Lines 266-273: `new_salad_targets`, the second components of the
`(frozenset(sample_graphs), target)` pairs not yet in `used_pairs`. -/
def newSaladTargets (sample_graphs : List String) (poss : List (Nat × String × Nat))
    (used_pairs : Finset (Finset String × String)) : Finset String :=
  (((poss.map (fun item => (sample_graphs.toFinset, item.2.1))).toFinset) \
      used_pairs).image Prod.snd

/-- Line 274: keep only the candidate targets whose salad instance was not
previously created. -/
def filterNovelTargets (sample_graphs : List String) (poss : List (Nat × String × Nat))
    (used_pairs : Finset (Finset String × String)) : List (Nat × String × Nat) :=
  poss.filter (fun item => item.2.1 ∈ newSaladTargets sample_graphs poss used_pairs)

/-- The observable novelty state of `make_mixture_data`: the `used_pairs`
set and the `(frozenset(source_ids), target_id)` pairs of the mixtures
actually written out so far. -/
structure GenState where
  used_pairs : Finset (Finset String × String)
  emitted : List (Finset String × String)

/-- One iteration of `make_mixture_data`'s generation loop (lines 566-596)
together with the final, successful attempt of `create_mix`'s `while not
done` loop (lines 235-274; earlier rejected attempts mutate nothing):
a nodup sample whose candidate pairs contain at least one unused pair is
kept (line 269), `create_mix` builds one mixture per novel target (lines
273-274 and 289), `used_pairs` absorbs every produced pair whether or not
the mixture is later rejected (line 570), and the pairs surviving the
rejection filters (`emitF`, lines 572-596) are emitted. -/
def MixtureStep (st st' : GenState) : Prop :=
  ∃ (graph_list : String → Graph) (sample_graphs : List String)
    (query_points : List (String × List (String × Nat))) (emitF : String → Bool),
    sample_graphs.Nodup ∧
      ((get_possible_target_graph_ids graph_list sample_graphs query_points).map
          (fun item => (sample_graphs.toFinset, item.2.1))).toFinset \ st.used_pairs ≠ ∅ ∧
      st'.used_pairs = st.used_pairs ∪
        ((filterNovelTargets sample_graphs
            (get_possible_target_graph_ids graph_list sample_graphs query_points)
            st.used_pairs).map
          (fun item => (sample_graphs.toFinset, item.2.1))).toFinset ∧
      st'.emitted = st.emitted ++
        ((filterNovelTargets sample_graphs
            (get_possible_target_graph_ids graph_list sample_graphs query_points)
            st.used_pairs).filter (fun item => emitF item.2.1)).map
          (fun item => (sample_graphs.toFinset, item.2.1))

theorem map_getD_range {α : Type} (l : List α) (d : α) :
    (List.range l.length).map (fun i => l.getD i d) = l := by
  induction l with
  | nil => simp
  | cons x xs ih =>
    rw [List.length_cons, List.range_succ_eq_map, List.map_cons, List.map_map]
    have hsucc : ((fun i => (x :: xs).getD i d) ∘ Nat.succ) = fun i => xs.getD i d := by
      funext i
      rfl
    rw [hsucc, ih]
    rfl

theorem poss_targets_sublist (gl : String → Graph) (sample : List String)
    (qps : List (String × List (String × Nat))) :
    (((get_possible_target_graph_ids gl sample qps).map
      (fun it => it.2.1))).Sublist sample := by
  have hgen : ∀ l : List Nat,
      (((l.filterMap (possEntry gl sample qps)).map (fun it => it.2.1))).Sublist
        (l.map (fun gi => sample.getD gi "")) := by
    intro l
    induction l with
    | nil => simp
    | cons gi l ih =>
      rw [List.filterMap_cons]
      cases hentry : possEntry gl sample qps gi with
      | none =>
        simp only [List.map_cons]
        exact ih.trans (List.sublist_cons_self _ _)
      | some e =>
        have he : e.2.1 = sample.getD gi "" := by
          simp only [possEntry] at hentry
          split at hentry
          · cases hentry
            rfl
          · cases hentry
        simp only [List.map_cons]
        rw [← he]
        exact List.Sublist.cons₂ _ ih
  have h := hgen (List.range sample.length)
  rwa [map_getD_range sample] at h

theorem filterNovel_pair_not_used (sample : List String)
    (poss : List (Nat × String × Nat)) (used : Finset (Finset String × String)) :
    ∀ item ∈ filterNovelTargets sample poss used,
      (sample.toFinset, item.2.1) ∉ used := by
  intro item hitem
  have hmem := List.mem_filter.mp hitem
  have ht : item.2.1 ∈ newSaladTargets sample poss used := by
    simpa using hmem.2
  rcases Finset.mem_image.mp ht with ⟨pair, hpair, hsnd⟩
  have hdiff := Finset.mem_sdiff.mp hpair
  have hfst : pair.1 = sample.toFinset := by
    rcases List.mem_map.mp (List.mem_toFinset.mp hdiff.1) with ⟨it, _, heq⟩
    rw [← heq]
  have hpeq : pair = (sample.toFinset, item.2.1) := by
    rcases pair with ⟨pf, ps⟩
    simp only at hfst hsnd
    rw [hfst, hsnd]
  rw [← hpeq]
  exact hdiff.2

theorem filterNovel_pairs_nodup (gl : String → Graph) (sample : List String)
    (qps : List (String × List (String × Nat)))
    (used : Finset (Finset String × String)) (hnd : sample.Nodup) :
    ((filterNovelTargets sample (get_possible_target_graph_ids gl sample qps) used).map
      (fun item => (sample.toFinset, item.2.1))).Nodup := by
  have htargets : ((get_possible_target_graph_ids gl sample qps).map
      (fun it => it.2.1)).Nodup :=
    (poss_targets_sublist gl sample qps).nodup hnd
  have hkept : ((filterNovelTargets sample (get_possible_target_graph_ids gl sample qps)
      used).map (fun it => it.2.1)).Nodup := by
    refine List.Sublist.nodup ?_ htargets
    exact List.Sublist.map _ (List.filter_sublist _)
  have hcomp : ((filterNovelTargets sample (get_possible_target_graph_ids gl sample qps)
        used).map (fun item => (sample.toFinset, item.2.1))) =
      ((filterNovelTargets sample (get_possible_target_graph_ids gl sample qps)
        used).map (fun it => it.2.1)).map (fun t => (sample.toFinset, t)) := by
    rw [List.map_map]
    rfl
  rw [hcomp]
  refine List.Nodup.map ?_ hkept
  intro a b hab
  exact congrArg Prod.snd hab

/-- C5: along every run of the generation loop started from an empty
`used_pairs` set, the emitted mixtures carry pairwise distinct
`(frozenset(source_ids), target_id)` pairs, and every pair ever produced —
emitted or rejected — is recorded in `used_pairs`. -/
theorem mixture_novelty (st : GenState)
    (h : Relation.ReflTransGen MixtureStep ⟨∅, []⟩ st) :
    st.emitted.Nodup ∧ ∀ p ∈ st.emitted, p ∈ st.used_pairs := by
  induction h with
  | refl =>
    constructor
    · exact List.nodup_nil
    · intro p hp
      cases hp
  | tail _hprev hstep ih =>
    rename_i stmid stfin
    obtain ⟨gl, sample, qps, emitF, hnd, _hne, hused, hemit⟩ := hstep
    obtain ⟨ihnodup, ihused⟩ := ih
    have hkeptnodup := filterNovel_pairs_nodup gl sample qps stmid.used_pairs hnd
    have hnewnodup : (((filterNovelTargets sample
        (get_possible_target_graph_ids gl sample qps) stmid.used_pairs).filter
          (fun item => emitF item.2.1)).map
        (fun item => (sample.toFinset, item.2.1))).Nodup := by
      refine List.Sublist.nodup ?_ hkeptnodup
      exact List.Sublist.map _ (List.filter_sublist _)
    have hnewfresh : ∀ p ∈ ((filterNovelTargets sample
        (get_possible_target_graph_ids gl sample qps) stmid.used_pairs).filter
          (fun item => emitF item.2.1)).map
        (fun item => (sample.toFinset, item.2.1)), p ∉ stmid.used_pairs := by
      intro p hp
      rcases List.mem_map.mp hp with ⟨item, hitem, rfl⟩
      exact filterNovel_pair_not_used sample _ stmid.used_pairs item
        (List.mem_of_mem_filter hitem)
    constructor
    · rw [hemit]
      rw [List.nodup_append]
      refine ⟨ihnodup, hnewnodup, ?_⟩
      intro p hp hpnew
      exact hnewfresh p hpnew (ihused p hp)
    · intro p hp
      rw [hemit] at hp
      rw [hused]
      rcases List.mem_append.mp hp with hp | hp
      · exact Finset.mem_union_left _ (ihused p hp)
      · refine Finset.mem_union_right _ ?_
        rcases List.mem_map.mp hp with ⟨item, hitem, rfl⟩
        exact List.mem_toFinset.mpr (List.mem_map.mpr ⟨item,
          List.mem_of_mem_filter hitem, rfl⟩)

/-- Concrete one-step run for the C5 witness: two sampled graphs, one event
merge point, both candidate targets novel and emitted. -/
def fsW : Finset String := {qg1, qg2}

def usedW : Finset (Finset String × String) := {(fsW, qg1), (fsW, qg2)}

def emittedW : List (Finset String × String) := [(fsW, qg1), (fsW, qg2)]

def glW : String → Graph := fun _ => Wg4

def qpsW : List (String × List (String × Nat)) := [(qname, [(qe1, 3), (qe2, 3)])]

/-- Witness for C5: `mixture_novelty` applied to the concrete one-step trace
that produces (and emits) both candidate targets of one successful attempt. -/
theorem mixture_novelty_witness :
    (GenState.mk usedW emittedW).emitted.Nodup ∧
      ∀ p ∈ (GenState.mk usedW emittedW).emitted,
        p ∈ (GenState.mk usedW emittedW).used_pairs :=
  mixture_novelty (GenState.mk usedW emittedW)
    (Relation.ReflTransGen.single
      ⟨glW, [qg1, qg2], qpsW, fun _ => true, by decide, by decide, by decide, by decide⟩)

/-! ## Merge-point classification in the Abridger (gen_salads.py line 96) -/

/-- Line 96: a node of the mixed graph is a merge point iff its incident
statements carry exactly `3` distinct graph ids.  The arity is hard-coded;
`num_sources` is not even a parameter of `abridge_graph`. -/
def mergePoints (g : Graph) : Finset String :=
  g.ereKeys.filter (fun k =>
    (((g.ere k).stmt_ids).image (fun s => (g.stmt s).graph_id)).card = 3)

/-- The classification as C3 words it (second, spec-worded definition kept
for comparison with the code's `mergePoints`): a node is a merge point iff
the graph ids of its incident statements include all `num_sources`
contributing source-graph ids. -/
def mergePointsPerSpec (g : Graph) (sources : Finset String) : Finset String :=
  g.ereKeys.filter (fun k =>
    sources ⊆ ((g.ere k).stmt_ids).image (fun s => (g.stmt s).graph_id))

/-- Counterexample graph for C3: a two-source mixture (`num_sources = 2`)
whose node `zn` carries statements from both sources. -/
def zn : String := "n"

def zo : String := "o"

def zs1 : String := "s1"

def zs2 : String := "s2"

def gidA : String := "A"

def gidB : String := "B"

def Wg3 : Graph :=
  { ereKeys := {zn, zo}, stmtKeys := {zs1, zs2},
    ere := fun k =>
      if k = zn then eEre zn "Event" gidA {zo} {zs1, zs2}
      else eEre zo "Entity" gidB {zn} {zs1, zs2},
    stmt := fun s =>
      if s = zs1 then eStmt zs1 zn (some zo) ["arg"] gidA
      else eStmt zs2 zo (some zn) ["arg"] gidB }

/-- C3 as frozen is false for `num_sources = 2`: node `zn`'s incident
statements originate from both contributing sources `{A, B}`, so the claim
classifies it as a merge point, but the code's hard-coded arity-3 test does
not. -/
theorem mergePoints_counterexample :
    zn ∈ mergePointsPerSpec Wg3 {gidA, gidB} ∧ zn ∉ mergePoints Wg3 := by
  decide

/-- C3 (amended): the code classifies a node as a merge point iff its
incident statements carry exactly 3 distinct graph ids, independently of
`num_sources`; this coincides with the claim's classification exactly when
`num_sources = 3` and all statement graph ids come from the 3 contributing
sources, i.e. for the default configuration. -/
theorem mergePoints_eq_spec (g : Graph) (sources : Finset String)
    (hcard : sources.card = 3)
    (hgids : ∀ k ∈ g.ereKeys, ∀ s ∈ (g.ere k).stmt_ids,
      (g.stmt s).graph_id ∈ sources) :
    mergePoints g = mergePointsPerSpec g sources := by
  unfold mergePoints mergePointsPerSpec
  refine Finset.filter_congr ?_
  intro k hk
  have hsub : ((g.ere k).stmt_ids).image (fun s => (g.stmt s).graph_id) ⊆ sources := by
    intro gid hgid
    rcases Finset.mem_image.mp hgid with ⟨s, hs, rfl⟩
    exact hgids k hk s hs
  constructor
  · intro hc
    have heq : ((g.ere k).stmt_ids).image (fun s => (g.stmt s).graph_id) = sources :=
      Finset.eq_of_subset_of_card_le hsub (by rw [hc, hcard])
    rw [heq]
  · intro hsup
    have heq : ((g.ere k).stmt_ids).image (fun s => (g.stmt s).graph_id) = sources :=
      Finset.Subset.antisymm hsub hsup
    rw [heq, hcard]

/-- Concrete 3-source graph for the amended-C3 witness. -/
def gidC3 : String := "C"

def zs3 : String := "s3"

def zp : String := "p"

def Wg3b : Graph :=
  { ereKeys := {zn, zo, zp}, stmtKeys := {zs1, zs2, zs3},
    ere := fun k =>
      if k = zn then eEre zn "Event" gidA {zo, zp} {zs1, zs2, zs3}
      else if k = zo then eEre zo "Entity" gidB {zn} {zs1, zs2}
      else eEre zp "Entity" gidC3 {zn} {zs3},
    stmt := fun s =>
      if s = zs1 then eStmt zs1 zn (some zo) ["arg"] gidA
      else if s = zs2 then eStmt zs2 zo (some zn) ["arg"] gidB
      else eStmt zs3 zn (some zp) ["arg"] gidC3 }

/-- Witness for the amended C3: on the 3-source graph `Wg3b` the code's
classification and the claim's coincide. -/
theorem mergePoints_eq_spec_witness :
    mergePoints Wg3b = mergePointsPerSpec Wg3b {gidA, gidB, gidC3} :=
  mergePoints_eq_spec Wg3b {gidA, gidB, gidC3} (by decide) (by decide)

/-! ## The Abridger (`abridge_graph`, gen_salads.py lines 78-155)

Phases, in source order:
1. lines 79-81: refresh every node's `stmt_ids` (`update` = union with all
   statements referencing it) and rebuild `neighbor_ere_ids` from the
   refreshed set (non-self endpoints of tail-bearing statements; Python's
   `set.union(*[...])` raises `TypeError` for a node with no tail-bearing
   statement — precondition `N` below keeps that from happening);
2. lines 83-94: at any node carrying more than one typing statement, delete
   the non-target-graph ones (from `stmts` and from the node's `stmt_ids`);
3. line 96: `mergePoints`;
4. lines 98-107: BFS from the merge points for `num_abridge_hops` rounds;
5. lines 109-110: collect the statements of the nodes seen before the last
   frontier, then absorb the last frontier into `seen_eres`;
6. lines 112-115: every Relation node in the (snapshot of the) seen set
   pulls in its own statements and all its neighbours;
7. line 117: every seen node's typing statements are retained;
8. lines 119-123: delete the unseen nodes and unretained statements;
9. lines 125-127: re-tighten each retained node's `stmt_ids` (intersection
   with the retained statements) and `neighbor_ere_ids`.
-/

def recompute (g : Graph) : Graph :=
  { g with ere := fun k =>
      if k ∈ g.ereKeys then
        let e := g.ere k
        let sids := e.stmt_ids ∪ g.stmtKeys.filter (fun s => k ∈ (g.stmt s).endIds)
        { e with
          stmt_ids := sids,
          neighbor_ere_ids := (sids.biUnion (fun s => (g.stmt s).pairIds)) \ {k} }
      else g.ere k }

/-- Lines 86-89: the statements the dedup pass deletes at node `k`. -/
def abridgeDels (target_graph_id : String) (g : Graph) (k : String) : Finset String :=
  if 1 < ((g.ere k).stmt_ids.filter (fun s => (g.stmt s).tail_id = none)).card then
    (g.ere k).stmt_ids.filter (fun s =>
      (g.stmt s).tail_id = none ∧ (g.stmt s).graph_id ≠ target_graph_id)
  else ∅

/-- Lines 83-94, iterating the node dictionary in canonical key order. -/
def abridgeDedup (target_graph_id : String) (g : Graph) : Graph :=
  (keyList g.ereKeys).foldl (delStep (abridgeDels target_graph_id)) g

/-- Lines 98-107: `i` counts up to `num_abridge_hops`; here the remaining
hop budget is the fuel. -/
def bfsLoop (g : Graph) : Nat → Finset String → Finset String →
    Finset String × Finset String
  | 0, seen, curr => (seen, curr)
  | hops + 1, seen, curr =>
    if curr = ∅ then (seen, curr)
    else
      bfsLoop g hops (seen ∪ curr)
        ((curr.biUnion fun k => (g.ere k).neighbor_ere_ids) \ (seen ∪ curr))

/-- Lines 98-115: the node ids retained by the pruning (`seen_eres` after
the BFS and the Relation extension; line 112 iterates a `deepcopy`
snapshot, so the extension reads the pre-extension set). -/
def abridgeSeen2 (g : Graph) (num_abridge_hops : Nat) : Finset String :=
  let sc := bfsLoop g num_abridge_hops ∅ (mergePoints g)
  let seen1 := sc.1 ∪ sc.2
  seen1 ∪ (seen1.filter (fun k => (g.ere k).category = ("Relation"))).biUnion
    (fun k => (g.ere k).neighbor_ere_ids)

/-- Lines 109-117: the statement ids retained (`reachable_stmts` after the
Relation extension and the typing retention). -/
def abridgeRs (g : Graph) (num_abridge_hops : Nat) : Finset String :=
  let sc := bfsLoop g num_abridge_hops ∅ (mergePoints g)
  let seen1 := sc.1 ∪ sc.2
  (sc.1.biUnion (fun k => (g.ere k).stmt_ids) ∪
      (seen1.filter (fun k => (g.ere k).category = ("Relation"))).biUnion
        (fun k => (g.ere k).stmt_ids)) ∪
    (abridgeSeen2 g num_abridge_hops).biUnion
      (fun k => (g.ere k).stmt_ids.filter (fun s => (g.stmt s).tail_id = none))

/-- Lines 96-127: BFS from the merge points, Relation extension, typing
retention, deletion of the unseen nodes and unretained statements
(lines 119-123), and the final re-tightening of `stmt_ids` and
`neighbor_ere_ids` (lines 125-127). -/
def pruneStage (g : Graph) (num_abridge_hops : Nat) : Graph :=
  let seen2 := abridgeSeen2 g num_abridge_hops
  let rs := abridgeRs g num_abridge_hops
  { ereKeys := g.ereKeys ∩ seen2,
    stmtKeys := g.stmtKeys ∩ rs,
    stmt := g.stmt,
    ere := fun k =>
      if k ∈ g.ereKeys ∩ seen2 then
        { g.ere k with
          stmt_ids := (g.ere k).stmt_ids ∩ rs,
          neighbor_ere_ids :=
            (((g.ere k).stmt_ids ∩ rs).biUnion (fun s => (g.stmt s).pairIds)) \ {k} }
      else g.ere k }

/-- Lines 78-127 (`origin_id` and `query` do not influence the pruning and
are omitted). -/
def abridge_graph (g0 : Graph) (target_graph_id : String)
    (num_abridge_hops : Nat) : Graph :=
  pruneStage (abridgeDedup target_graph_id (recompute g0)) num_abridge_hops

/-- The assertion block of `abridge_graph` (lines 129-155), strengthened by
the presence of every retained statement's endpoints among the retained
nodes (on a missing endpoint Python would raise `KeyError` at line 134
rather than `AssertionError`, equally a failure). -/
def abridgeOK (g : Graph) : Prop :=
  (∀ s ∈ g.stmtKeys,
    (g.stmt s).head_id ∈ g.ereKeys ∧
      s ∈ (g.ere (g.stmt s).head_id).stmt_ids ∧
      ∀ t ∈ ((g.stmt s).tail_id).toList,
        t ∈ g.ereKeys ∧ s ∈ (g.ere t).stmt_ids ∧
          t ∈ (g.ere (g.stmt s).head_id).neighbor_ere_ids ∧
          (g.stmt s).head_id ∈ (g.ere t).neighbor_ere_ids) ∧
    ∀ k ∈ g.ereKeys,
      k ∉ (g.ere k).neighbor_ere_ids ∧
        ((g.ere k).stmt_ids.filter (fun s => (g.stmt s).tail_id = none)).card = 1 ∧
        (∀ s ∈ (g.ere k).stmt_ids, (g.stmt s).tail_id = none →
          (g.stmt s).graph_id = (g.ere k).graph_id) ∧
        ((g.ere k).stmt_ids.biUnion (fun s => (g.stmt s).endIds)) \ {k} =
          (g.ere k).neighbor_ere_ids ∧
        g.stmtKeys.filter (fun s => k ∈ (g.stmt s).endIds) = (g.ere k).stmt_ids

instance (g : Graph) : Decidable (abridgeOK g) := by
  unfold abridgeOK
  infer_instance

/-- The typing statements of node `k` recorded in the statement table. -/
def typingOf (g : Graph) (k : String) : Finset String :=
  g.stmtKeys.filter (fun s => (g.stmt s).tail_id = none ∧ (g.stmt s).head_id = k)

/-- Well-formedness of the mixed graph handed to the Abridger; every part of
it holds for the graphs `create_mix` assembles:
* `W1`: recorded incident statements exist and really reference the node;
* `W2`: no dangling statement endpoints;
* `S`: no self-loop statements;
* `T`: a node carries either exactly one typing statement, of its own graph,
  or several, in which case the node (a merge point) belongs to the target
  graph and exactly one of them comes from the target graph;
* `N`: every node has at least one tail-bearing statement (otherwise
  Python's `set.union(*[])` at lines 81/127 raises `TypeError`). -/
def AbridgeWF (g : Graph) (tgt : String) : Prop :=
  (∀ k ∈ g.ereKeys, ∀ s ∈ (g.ere k).stmt_ids, s ∈ g.stmtKeys ∧ k ∈ (g.stmt s).endIds) ∧
    (∀ s ∈ g.stmtKeys, (g.stmt s).head_id ∈ g.ereKeys ∧
      ∀ t ∈ ((g.stmt s).tail_id).toList, t ∈ g.ereKeys) ∧
    (∀ s ∈ g.stmtKeys, (g.stmt s).tail_id ≠ some (g.stmt s).head_id) ∧
    (∀ k ∈ g.ereKeys,
      ((typingOf g k).card = 1 ∧
          ∀ s ∈ typingOf g k, (g.stmt s).graph_id = (g.ere k).graph_id) ∨
        (2 ≤ (typingOf g k).card ∧ (g.ere k).graph_id = tgt ∧
          ((typingOf g k).filter (fun s => (g.stmt s).graph_id = tgt)).card = 1)) ∧
    ∀ k ∈ g.ereKeys, ∃ s ∈ g.stmtKeys, (g.stmt s).tail_id ≠ none ∧ k ∈ (g.stmt s).endIds

instance (g : Graph) (tgt : String) : Decidable (AbridgeWF g tgt) := by
  unfold AbridgeWF
  infer_instance

theorem recompute_ereKeys (g : Graph) : (recompute g).ereKeys = g.ereKeys := rfl

theorem recompute_stmtKeys (g : Graph) : (recompute g).stmtKeys = g.stmtKeys := rfl

theorem recompute_stmt (g : Graph) : (recompute g).stmt = g.stmt := rfl

theorem recompute_category (g : Graph) (k : String) :
    ((recompute g).ere k).category = (g.ere k).category := by
  by_cases hk : k ∈ g.ereKeys <;> simp [recompute, hk]

theorem recompute_graph_id (g : Graph) (k : String) :
    ((recompute g).ere k).graph_id = (g.ere k).graph_id := by
  by_cases hk : k ∈ g.ereKeys <;> simp [recompute, hk]

theorem recompute_stmt_ids (g : Graph) (k : String) (hk : k ∈ g.ereKeys)
    (hsound : ∀ s ∈ (g.ere k).stmt_ids, s ∈ g.stmtKeys ∧ k ∈ (g.stmt s).endIds) :
    ((recompute g).ere k).stmt_ids =
      g.stmtKeys.filter (fun s => k ∈ (g.stmt s).endIds) := by
  have h1 : ((recompute g).ere k).stmt_ids =
      (g.ere k).stmt_ids ∪ g.stmtKeys.filter (fun s => k ∈ (g.stmt s).endIds) := by
    simp [recompute, hk]
  rw [h1, Finset.union_eq_right]
  intro s hs
  rcases hsound s hs with ⟨h2, h3⟩
  exact Finset.mem_filter.mpr ⟨h2, h3⟩

theorem recompute_nbrs (g : Graph) (k : String) (hk : k ∈ g.ereKeys) :
    ((recompute g).ere k).neighbor_ere_ids =
      (((recompute g).ere k).stmt_ids.biUnion (fun s => (g.stmt s).pairIds)) \ {k} := by
  simp [recompute, hk]

theorem abridgeDels_stable (tgt : String) (g0 : Graph) :
    ∀ (g' : Graph) (k : String), g'.stmt = g0.stmt → g'.ere k = g0.ere k →
      abridgeDels tgt g' k = abridgeDels tgt g0 k := by
  intro g' k hstmt here
  unfold abridgeDels
  rw [hstmt, here]

theorem abridgeDedup_eq (tgt : String) (g : Graph) :
    abridgeDedup tgt g = delState g (fun k => abridgeDels tgt g k) g.ereKeys := by
  unfold abridgeDedup
  rw [foldl_delStep_closed g _ (abridgeDels_stable tgt g) _ (keyList_nodup _),
    keyList_toFinset]

theorem bfsLoop_zero (g : Graph) (seen curr : Finset String) :
    bfsLoop g 0 seen curr = (seen, curr) := rfl

theorem bfsLoop_succ (g : Graph) (n : Nat) (seen curr : Finset String) :
    bfsLoop g (n + 1) seen curr =
      if curr = ∅ then (seen, curr)
      else bfsLoop g n (seen ∪ curr)
        ((curr.biUnion fun k => (g.ere k).neighbor_ere_ids) \ (seen ∪ curr)) := rfl

theorem bfsLoop_seen_mono (g : Graph) :
    ∀ (hops : Nat) (seen curr : Finset String), seen ⊆ (bfsLoop g hops seen curr).1 := by
  intro hops
  induction hops with
  | zero =>
    intro seen curr
    rw [bfsLoop_zero]
  | succ n ih =>
    intro seen curr
    rw [bfsLoop_succ]
    by_cases hc : curr = ∅
    · rw [if_pos hc]
    · rw [if_neg hc]
      exact Finset.Subset.trans Finset.subset_union_left (ih _ _)

theorem bfsLoop_spec (g : Graph)
    (hcl : ∀ k ∈ g.ereKeys, (g.ere k).neighbor_ere_ids ⊆ g.ereKeys) :
    ∀ (hops : Nat) (seen curr : Finset String),
      seen ∪ curr ⊆ g.ereKeys →
      (∀ x ∈ seen, (g.ere x).neighbor_ere_ids ⊆ seen ∪ curr) →
      (bfsLoop g hops seen curr).1 ∪ (bfsLoop g hops seen curr).2 ⊆ g.ereKeys ∧
        ∀ x ∈ (bfsLoop g hops seen curr).1,
          (g.ere x).neighbor_ere_ids ⊆
            (bfsLoop g hops seen curr).1 ∪ (bfsLoop g hops seen curr).2 := by
  intro hops
  induction hops with
  | zero =>
    intro seen curr hsub hinv
    rw [bfsLoop_zero]
    exact ⟨hsub, hinv⟩
  | succ n ih =>
    intro seen curr hsub hinv
    rw [bfsLoop_succ]
    by_cases hc : curr = ∅
    · rw [if_pos hc]
      exact ⟨hsub, hinv⟩
    · rw [if_neg hc]
      apply ih
      · intro x hx
        rcases Finset.mem_union.mp hx with hx | hx
        · exact hsub hx
        · rcases Finset.mem_sdiff.mp hx with ⟨hx1, _⟩
          rcases Finset.mem_biUnion.mp hx1 with ⟨k, hk, hxk⟩
          exact hcl k (hsub (Finset.mem_union_right _ hk)) hxk
      · intro x hx y hy
        rcases Finset.mem_union.mp hx with hx | hx
        · exact Finset.mem_union_left _ (hinv x hx hy)
        · by_cases hy2 : y ∈ seen ∪ curr
          · exact Finset.mem_union_left _ hy2
          · refine Finset.mem_union_right _ (Finset.mem_sdiff.mpr ⟨?_, hy2⟩)
            exact Finset.mem_biUnion.mpr ⟨x, hx, hy⟩

theorem bfsLoop_start (g : Graph) (hops : Nat) (hhops : 1 ≤ hops)
    (mp : Finset String) (hmp : mp ≠ ∅) :
    mp ⊆ (bfsLoop g hops ∅ mp).1 := by
  obtain ⟨n, rfl⟩ : ∃ n, hops = n + 1 := ⟨hops - 1, by omega⟩
  rw [bfsLoop_succ, if_neg hmp]
  exact Finset.Subset.trans Finset.subset_union_right (bfsLoop_seen_mono g n _ _)

theorem mem_pairIds {st : Stmt} {x : String} :
    x ∈ st.pairIds ↔ st.tail_id ≠ none ∧ x ∈ st.endIds := by
  cases h : st.tail_id with
  | none => simp [Stmt.pairIds, Stmt.endIds, h]
  | some t => simp [Stmt.pairIds, Stmt.endIds, h]

theorem biUnion_sdiff_empty {X Y : Finset String} (f : String → Finset String)
    (hXY : X ⊆ Y) (h : ∀ s ∈ Y, s ∉ X → f s = ∅) :
    Y.biUnion f = X.biUnion f := by
  apply Finset.Subset.antisymm
  · intro x hx
    rcases Finset.mem_biUnion.mp hx with ⟨s, hs, hxs⟩
    by_cases hsX : s ∈ X
    · exact Finset.mem_biUnion.mpr ⟨s, hsX, hxs⟩
    · rw [h s hs hsX] at hxs
      exact absurd hxs (Finset.not_mem_empty x)
  · exact Finset.biUnion_subset_biUnion_of_subset_left f hXY

theorem biUnion_pair_end_sdiff (g : Graph) (X : Finset String) (k : String)
    (htyp : ∀ s ∈ X, (g.stmt s).tail_id = none → (g.stmt s).head_id = k) :
    (X.biUnion fun s => (g.stmt s).endIds) \ {k} =
      (X.biUnion fun s => (g.stmt s).pairIds) \ {k} := by
  ext x
  simp only [Finset.mem_sdiff, Finset.mem_biUnion, Finset.mem_singleton]
  constructor
  · rintro ⟨⟨s, hs, hxs⟩, hxk⟩
    refine ⟨⟨s, hs, mem_pairIds.mpr ⟨?_, hxs⟩⟩, hxk⟩
    intro hnone
    rcases mem_endIds.mp hxs with h1 | h2
    · exact hxk (h1.symm.trans (htyp s hs hnone))
    · rw [hnone] at h2
      cases h2
  · rintro ⟨⟨s, hs, hxs⟩, hxk⟩
    exact ⟨⟨s, hs, pairIds_subset_endIds _ hxs⟩, hxk⟩

theorem filter_inter_comm (X Y : Finset String) (p : String → Prop) [DecidablePred p] :
    (X ∩ Y).filter p = X.filter p ∩ Y := by
  ext a
  simp only [Finset.mem_filter, Finset.mem_inter]
  tauto

theorem endIds_subset_insert (g : Graph) (k : String)
    (hex : (g.ere k).stmt_ids = g.stmtKeys.filter (fun s => k ∈ (g.stmt s).endIds))
    (hnb : (g.ere k).neighbor_ere_ids =
      ((g.ere k).stmt_ids.biUnion fun s => (g.stmt s).pairIds) \ {k})
    (s : String) (hs : s ∈ (g.ere k).stmt_ids) :
    (g.stmt s).endIds ⊆ insert k (g.ere k).neighbor_ere_ids := by
  intro x hx
  by_cases hxk : x = k
  · exact Finset.mem_insert.mpr (Or.inl hxk)
  · refine Finset.mem_insert.mpr (Or.inr ?_)
    rw [hnb]
    refine Finset.mem_sdiff.mpr ⟨?_, by simpa using hxk⟩
    refine Finset.mem_biUnion.mpr ⟨s, hs, ?_⟩
    refine mem_pairIds.mpr ⟨?_, hx⟩
    intro hnone
    have hkend : k ∈ (g.stmt s).endIds := by
      rw [hex] at hs
      exact (Finset.mem_filter.mp hs).2
    rcases mem_endIds.mp hx with h1 | h2
    · rcases mem_endIds.mp hkend with h3 | h4
      · exact hxk (h1.symm.trans h3)
      · rw [hnone] at h4
        cases h4
    · rw [hnone] at h2
      cases h2

/-- Invariants of the graph entering the pruning phase (established by the
recompute and dedup passes): exact `stmt_ids`, `neighbor_ere_ids` derived
from them, a unique typing statement per node matching the node's graph,
no dangling endpoints, and no self-loops. -/
structure MidProps (g : Graph) : Prop where
  hex : ∀ k ∈ g.ereKeys, (g.ere k).stmt_ids =
    g.stmtKeys.filter (fun s => k ∈ (g.stmt s).endIds)
  hnb : ∀ k ∈ g.ereKeys, (g.ere k).neighbor_ere_ids =
    ((g.ere k).stmt_ids.biUnion fun s => (g.stmt s).pairIds) \ {k}
  hty : ∀ k ∈ g.ereKeys, ∃ t,
    (g.ere k).stmt_ids.filter (fun s => (g.stmt s).tail_id = none) = {t} ∧
      (g.stmt t).graph_id = (g.ere k).graph_id
  hW2 : ∀ s ∈ g.stmtKeys, (g.stmt s).endIds ⊆ g.ereKeys
  hsl : ∀ s ∈ g.stmtKeys, (g.stmt s).tail_id ≠ some (g.stmt s).head_id

theorem abridgeDels_sub (tgt : String) (g : Graph) (k : String) :
    abridgeDels tgt g k ⊆
      (g.ere k).stmt_ids.filter (fun s => (g.stmt s).tail_id = none) := by
  unfold abridgeDels
  by_cases h1 : 1 < ((g.ere k).stmt_ids.filter
      (fun s => (g.stmt s).tail_id = none)).card
  · rw [if_pos h1]
    intro s hs
    rcases Finset.mem_filter.mp hs with ⟨hs1, hs2, _⟩
    exact Finset.mem_filter.mpr ⟨hs1, hs2⟩
  · rw [if_neg h1]
    exact Finset.empty_subset _

theorem abridgeDels_typ (tgt : String) (g : Graph)
    (hexact : ∀ k ∈ g.ereKeys, (g.ere k).stmt_ids =
      g.stmtKeys.filter (fun s => k ∈ (g.stmt s).endIds)) :
    ∀ j ∈ g.ereKeys, ∀ s ∈ abridgeDels tgt g j,
      s ∈ (g.ere j).stmt_ids ∧ (g.stmt s).tail_id = none ∧
        (g.stmt s).head_id = j := by
  intro j hj s hs
  have h1 := abridgeDels_sub tgt g j hs
  rcases Finset.mem_filter.mp h1 with ⟨hs1, hs2⟩
  refine ⟨hs1, hs2, ?_⟩
  have hjend : j ∈ (g.stmt s).endIds := by
    rw [hexact j hj] at hs1
    exact (Finset.mem_filter.mp hs1).2
  rcases mem_endIds.mp hjend with h3 | h4
  · exact h3
  · rw [hs2] at h4
    cases h4

theorem delState_stmt_ids (g : Graph) (D : String → Finset String)
    (k : String) (hk : k ∈ g.ereKeys) :
    ((delState g D g.ereKeys).ere k).stmt_ids = (g.ere k).stmt_ids \ D k := by
  simp [delState, hk]

theorem delState_nbrs_eq (g : Graph) (D : String → Finset String)
    (k : String) (hk : k ∈ g.ereKeys) :
    ((delState g D g.ereKeys).ere k).neighbor_ere_ids =
      (g.ere k).neighbor_ere_ids := by
  simp [delState, hk]

theorem delState_graph_id (g : Graph) (D : String → Finset String) (k : String) :
    ((delState g D g.ereKeys).ere k).graph_id = (g.ere k).graph_id := by
  by_cases hk : k ∈ g.ereKeys <;> simp [delState, hk]

theorem delState_exact (g : Graph) (D : String → Finset String)
    (hexact : ∀ k ∈ g.ereKeys, (g.ere k).stmt_ids =
      g.stmtKeys.filter (fun s => k ∈ (g.stmt s).endIds))
    (hDtyp : ∀ j ∈ g.ereKeys, ∀ s ∈ D j,
      s ∈ (g.ere j).stmt_ids ∧ (g.stmt s).tail_id = none ∧ (g.stmt s).head_id = j)
    (k : String) (hk : k ∈ g.ereKeys) :
    ((delState g D g.ereKeys).ere k).stmt_ids =
      (delState g D g.ereKeys).stmtKeys.filter (fun s => k ∈ (g.stmt s).endIds) := by
  have h2 : (delState g D g.ereKeys).stmtKeys = g.stmtKeys \ g.ereKeys.biUnion D := rfl
  rw [delState_stmt_ids g D k hk, h2, hexact k hk, filter_sdiff_comm]
  ext s
  simp only [Finset.mem_sdiff, Finset.mem_filter, Finset.mem_biUnion]
  constructor
  · rintro ⟨⟨hsK, hkend⟩, hnD⟩
    refine ⟨⟨hsK, hkend⟩, ?_⟩
    rintro ⟨j, hj, hsj⟩
    rcases hDtyp j hj s hsj with ⟨-, hnone, hhead⟩
    rcases mem_endIds.mp hkend with h3 | h4
    · exact hnD (by rw [h3.symm.trans hhead]; exact hsj)
    · rw [hnone] at h4
      cases h4
  · rintro ⟨⟨hsK, hkend⟩, hnD⟩
    exact ⟨⟨hsK, hkend⟩, fun hsk => hnD ⟨k, hk, hsk⟩⟩

theorem delState_nbrs_desc (g : Graph) (D : String → Finset String)
    (hDtyp : ∀ j ∈ g.ereKeys, ∀ s ∈ D j,
      s ∈ (g.ere j).stmt_ids ∧ (g.stmt s).tail_id = none ∧ (g.stmt s).head_id = j)
    (hnb : ∀ k ∈ g.ereKeys, (g.ere k).neighbor_ere_ids =
      ((g.ere k).stmt_ids.biUnion fun s => (g.stmt s).pairIds) \ {k})
    (k : String) (hk : k ∈ g.ereKeys) :
    ((delState g D g.ereKeys).ere k).neighbor_ere_ids =
      ((((delState g D g.ereKeys).ere k).stmt_ids).biUnion
        fun s => (g.stmt s).pairIds) \ {k} := by
  rw [delState_nbrs_eq g D k hk, delState_stmt_ids g D k hk, hnb k hk]
  congr 1
  refine biUnion_sdiff_empty _ Finset.sdiff_subset ?_
  intro s hs hsn
  have hsD : s ∈ D k := by
    by_contra hsD
    exact hsn (Finset.mem_sdiff.mpr ⟨hs, hsD⟩)
  rcases hDtyp k hk s hsD with ⟨-, hnone, -⟩
  simp [Stmt.pairIds, hnone]

theorem dedup_typing (tgt : String) (g : Graph)
    (hexact : ∀ k ∈ g.ereKeys, (g.ere k).stmt_ids =
      g.stmtKeys.filter (fun s => k ∈ (g.stmt s).endIds))
    (hT : ∀ k ∈ g.ereKeys,
      ((typingOf g k).card = 1 ∧ ∀ s ∈ typingOf g k,
          (g.stmt s).graph_id = (g.ere k).graph_id) ∨
        (2 ≤ (typingOf g k).card ∧ (g.ere k).graph_id = tgt ∧
          ((typingOf g k).filter (fun s => (g.stmt s).graph_id = tgt)).card = 1))
    (k : String) (hk : k ∈ g.ereKeys) :
    ∃ t, ((delState g (fun j => abridgeDels tgt g j) g.ereKeys).ere k).stmt_ids.filter
        (fun s => (g.stmt s).tail_id = none) = {t} ∧
      (g.stmt t).graph_id = (g.ere k).graph_id := by
  have htyeq : (g.ere k).stmt_ids.filter (fun s => (g.stmt s).tail_id = none) =
      typingOf g k := by
    rw [hexact k hk]
    ext s
    simp only [Finset.mem_filter, typingOf]
    constructor
    · rintro ⟨⟨hsK, hkend⟩, hnone⟩
      refine ⟨hsK, hnone, ?_⟩
      rcases mem_endIds.mp hkend with h3 | h4
      · exact h3
      · rw [hnone] at h4
        cases h4
    · rintro ⟨hsK, hnone, hhead⟩
      exact ⟨⟨hsK, mem_endIds.mpr (Or.inl hhead)⟩, hnone⟩
  rw [delState_stmt_ids g _ k hk, filter_sdiff_comm, htyeq]
  rcases hT k hk with ⟨h1card, hgid⟩ | ⟨h2card, hktgt, h1tgt⟩
  · have hdel : abridgeDels tgt g k = ∅ := by
      unfold abridgeDels
      rw [htyeq, h1card, if_neg (by omega)]
    rw [hdel, Finset.sdiff_empty]
    obtain ⟨t, ht⟩ := Finset.card_eq_one.mp h1card
    exact ⟨t, ht, hgid t (ht ▸ Finset.mem_singleton_self t)⟩
  · have hdel : abridgeDels tgt g k = (g.ere k).stmt_ids.filter
        (fun s => (g.stmt s).tail_id = none ∧ (g.stmt s).graph_id ≠ tgt) := by
      unfold abridgeDels
      rw [htyeq, if_pos (by omega)]
    have hstep : typingOf g k \ abridgeDels tgt g k =
        (typingOf g k).filter (fun s => (g.stmt s).graph_id = tgt) := by
      rw [hdel]
      ext s
      simp only [Finset.mem_sdiff, Finset.mem_filter, typingOf]
      constructor
      · rintro ⟨⟨hsK, hnone, hhead⟩, hnd⟩
        refine ⟨⟨hsK, hnone, hhead⟩, ?_⟩
        by_contra hgt
        refine hnd ⟨?_, hnone, hgt⟩
        rw [hexact k hk]
        exact Finset.mem_filter.mpr ⟨hsK, mem_endIds.mpr (Or.inl hhead)⟩
      · rintro ⟨⟨hsK, hnone, hhead⟩, hgt⟩
        exact ⟨⟨hsK, hnone, hhead⟩, fun h => h.2.2 hgt⟩
    rw [hstep]
    obtain ⟨t, ht⟩ := Finset.card_eq_one.mp h1tgt
    refine ⟨t, ht, ?_⟩
    have htm : t ∈ (typingOf g k).filter (fun s => (g.stmt s).graph_id = tgt) :=
      ht ▸ Finset.mem_singleton_self t
    rw [(Finset.mem_filter.mp htm).2, hktgt]

theorem stage2_props (g0 : Graph) (tgt : String) (hwf : AbridgeWF g0 tgt) :
    MidProps (abridgeDedup tgt (recompute g0)) := by
  obtain ⟨hW1, hW2, hS, hT, _hN⟩ := hwf
  have hR : ∀ k ∈ g0.ereKeys, ((recompute g0).ere k).stmt_ids =
      g0.stmtKeys.filter (fun s => k ∈ (g0.stmt s).endIds) :=
    fun k hk => recompute_stmt_ids g0 k hk (hW1 k hk)
  have hRn : ∀ k ∈ g0.ereKeys, ((recompute g0).ere k).neighbor_ere_ids =
      (((recompute g0).ere k).stmt_ids.biUnion (fun s => (g0.stmt s).pairIds)) \ {k} :=
    fun k hk => recompute_nbrs g0 k hk
  have hDtyp := abridgeDels_typ tgt (recompute g0) hR
  rw [abridgeDedup_eq]
  refine ⟨?_, ?_, ?_, ?_, ?_⟩
  · intro k hk
    exact delState_exact (recompute g0) _ hR hDtyp k hk
  · intro k hk
    exact delState_nbrs_desc (recompute g0) _ hDtyp hRn k hk
  · intro k hk
    have h := dedup_typing tgt (recompute g0) hR (by
      intro j hj
      have hj0 : j ∈ g0.ereKeys := hj
      have h := hT j hj0
      rw [← recompute_graph_id g0 j] at h
      exact h) k hk
    rcases h with ⟨t, ht1, ht2⟩
    exact ⟨t, ht1, by rw [delState_graph_id]; exact ht2⟩
  · intro s hs
    have hsK : s ∈ g0.stmtKeys := by
      have h : (delState (recompute g0) (fun j => abridgeDels tgt (recompute g0) j)
          (recompute g0).ereKeys).stmtKeys ⊆ g0.stmtKeys := Finset.sdiff_subset
      exact h hs
    intro x hx
    rcases mem_endIds.mp hx with h1 | h2
    · exact h1 ▸ (hW2 s hsK).1
    · have h2a : (g0.stmt s).tail_id = some x := h2
      exact (hW2 s hsK).2 x (by rw [h2a]; simp)
  · intro s hs
    have hsK : s ∈ g0.stmtKeys := by
      have h : (delState (recompute g0) (fun j => abridgeDels tgt (recompute g0) j)
          (recompute g0).ereKeys).stmtKeys ⊆ g0.stmtKeys := Finset.sdiff_subset
      exact h hs
    exact hS s hsK

def bfsS (g : Graph) (hops : Nat) : Finset String := (bfsLoop g hops ∅ (mergePoints g)).1

def bfsC (g : Graph) (hops : Nat) : Finset String := (bfsLoop g hops ∅ (mergePoints g)).2

def seenOne (g : Graph) (hops : Nat) : Finset String := bfsS g hops ∪ bfsC g hops

def relsOf (g : Graph) (hops : Nat) : Finset String :=
  (seenOne g hops).filter (fun k => (g.ere k).category = ("Relation"))

theorem abridgeSeen2_eq (g : Graph) (hops : Nat) :
    abridgeSeen2 g hops =
      seenOne g hops ∪ (relsOf g hops).biUnion (fun k => (g.ere k).neighbor_ere_ids) := rfl

theorem abridgeRs_eq (g : Graph) (hops : Nat) :
    abridgeRs g hops =
      ((bfsS g hops).biUnion (fun k => (g.ere k).stmt_ids) ∪
          (relsOf g hops).biUnion (fun k => (g.ere k).stmt_ids)) ∪
        (abridgeSeen2 g hops).biUnion
          (fun k => (g.ere k).stmt_ids.filter (fun s => (g.stmt s).tail_id = none)) := rfl

theorem pruneStage_ereKeys (g : Graph) (hops : Nat) :
    (pruneStage g hops).ereKeys = g.ereKeys ∩ abridgeSeen2 g hops := rfl

theorem pruneStage_stmtKeys (g : Graph) (hops : Nat) :
    (pruneStage g hops).stmtKeys = g.stmtKeys ∩ abridgeRs g hops := rfl

theorem pruneStage_stmt (g : Graph) (hops : Nat) :
    (pruneStage g hops).stmt = g.stmt := rfl

theorem pruneStage_ere_mem (g : Graph) (hops : Nat) (k : String)
    (hk : k ∈ g.ereKeys ∩ abridgeSeen2 g hops) :
    (pruneStage g hops).ere k =
      { g.ere k with
        stmt_ids := (g.ere k).stmt_ids ∩ abridgeRs g hops,
        neighbor_ere_ids :=
          (((g.ere k).stmt_ids ∩ abridgeRs g hops).biUnion
            (fun s => (g.stmt s).pairIds)) \ {k} } := by
  simp only [pruneStage]
  rw [if_pos hk]

theorem pruneStage_ok (g : Graph) (hops : Nat) (hmid : MidProps g) :
    abridgeOK (pruneStage g hops) := by
  obtain ⟨hex, hnb, hty, hW2, hsl⟩ := hmid
  have hmpK : mergePoints g ⊆ g.ereKeys := Finset.filter_subset _ _
  have hids_sub : ∀ k ∈ g.ereKeys, (g.ere k).stmt_ids ⊆ g.stmtKeys := by
    intro k hk
    rw [hex k hk]
    exact Finset.filter_subset _ _
  have hcl : ∀ k ∈ g.ereKeys, (g.ere k).neighbor_ere_ids ⊆ g.ereKeys := by
    intro k hk x hx
    rw [hnb k hk] at hx
    rcases Finset.mem_sdiff.mp hx with ⟨hx1, -⟩
    rcases Finset.mem_biUnion.mp hx1 with ⟨s, hs, hxs⟩
    exact hW2 s (hids_sub k hk hs) (pairIds_subset_endIds _ hxs)
  have hbfs := bfsLoop_spec g hcl hops ∅ (mergePoints g)
    (by rw [Finset.empty_union]; exact hmpK)
    (by intro x hx; exact absurd hx (Finset.not_mem_empty x))
  have hseen1K : seenOne g hops ⊆ g.ereKeys := hbfs.1
  have hSinv : ∀ x ∈ bfsS g hops, (g.ere x).neighbor_ere_ids ⊆ seenOne g hops := hbfs.2
  have hrels1 : relsOf g hops ⊆ seenOne g hops := Finset.filter_subset _ _
  have hseen2K : abridgeSeen2 g hops ⊆ g.ereKeys := by
    rw [abridgeSeen2_eq]
    intro x hx
    rcases Finset.mem_union.mp hx with hx | hx
    · exact hseen1K hx
    · rcases Finset.mem_biUnion.mp hx with ⟨k, hk, hxk⟩
      exact hcl k (hseen1K (hrels1 hk)) hxk
  have hseen1_2 : seenOne g hops ⊆ abridgeSeen2 g hops := by
    rw [abridgeSeen2_eq]
    exact Finset.subset_union_left
  have hfK : (pruneStage g hops).ereKeys = abridgeSeen2 g hops := by
    rw [pruneStage_ereKeys]
    exact Finset.inter_eq_right.mpr hseen2K
  have hhead : ∀ k ∈ g.ereKeys, ∀ s ∈ (g.ere k).stmt_ids,
      (g.stmt s).tail_id = none → (g.stmt s).head_id = k := by
    intro k hk s hs hnone
    have hkend : k ∈ (g.stmt s).endIds := by
      rw [hex k hk] at hs
      exact (Finset.mem_filter.mp hs).2
    rcases mem_endIds.mp hkend with h3 | h4
    · exact h3
    · rw [hnone] at h4
      cases h4
  have hENDS : ∀ s ∈ abridgeRs g hops,
      s ∈ g.stmtKeys ∧ (g.stmt s).endIds ⊆ abridgeSeen2 g hops := by
    intro s hs
    rw [abridgeRs_eq] at hs
    rcases Finset.mem_union.mp hs with hs | hs
    · rcases Finset.mem_union.mp hs with hs | hs
      · rcases Finset.mem_biUnion.mp hs with ⟨k, hkS, hsk⟩
        have hkK : k ∈ g.ereKeys := hseen1K (Finset.mem_union_left _ hkS)
        refine ⟨hids_sub k hkK hsk, ?_⟩
        intro x hx
        rcases Finset.mem_insert.mp
            (endIds_subset_insert g k (hex k hkK) (hnb k hkK) s hsk hx) with rfl | hx2
        · exact hseen1_2 (Finset.mem_union_left _ hkS)
        · exact hseen1_2 (hSinv k hkS hx2)
      · rcases Finset.mem_biUnion.mp hs with ⟨k, hkR, hsk⟩
        have hkK : k ∈ g.ereKeys := hseen1K (hrels1 hkR)
        refine ⟨hids_sub k hkK hsk, ?_⟩
        intro x hx
        rcases Finset.mem_insert.mp
            (endIds_subset_insert g k (hex k hkK) (hnb k hkK) s hsk hx) with rfl | hx2
        · exact hseen1_2 (hrels1 hkR)
        · rw [abridgeSeen2_eq]
          exact Finset.mem_union_right _ (Finset.mem_biUnion.mpr ⟨k, hkR, hx2⟩)
    · rcases Finset.mem_biUnion.mp hs with ⟨k, hk2, hsk⟩
      have hkK : k ∈ g.ereKeys := hseen2K hk2
      rcases Finset.mem_filter.mp hsk with ⟨hsk1, hnone⟩
      refine ⟨hids_sub k hkK hsk1, ?_⟩
      intro x hx
      rcases mem_endIds.mp hx with h1 | h2
      · have hxk : x = k := h1.symm.trans (hhead k hkK s hsk1 hnone)
        rw [hxk]
        exact hk2
      · rw [hnone] at h2
        cases h2
  have hTY : ∀ k ∈ abridgeSeen2 g hops, ∃ t,
      (g.ere k).stmt_ids.filter (fun s => (g.stmt s).tail_id = none) = {t} ∧
        (g.stmt t).graph_id = (g.ere k).graph_id ∧ t ∈ abridgeRs g hops := by
    intro k hk
    obtain ⟨t, ht1, ht2⟩ := hty k (hseen2K hk)
    refine ⟨t, ht1, ht2, ?_⟩
    rw [abridgeRs_eq]
    refine Finset.mem_union_right _ (Finset.mem_biUnion.mpr ⟨k, hk, ?_⟩)
    rw [ht1]
    exact Finset.mem_singleton_self t
  have hmem : ∀ s k, s ∈ g.stmtKeys → s ∈ abridgeRs g hops → k ∈ g.ereKeys →
      k ∈ abridgeSeen2 g hops → k ∈ (g.stmt s).endIds →
      s ∈ ((pruneStage g hops).ere k).stmt_ids := by
    intro s k hsK hsRS hkK hkS2 hkend
    rw [pruneStage_ere_mem g hops k (Finset.mem_inter.mpr ⟨hkK, hkS2⟩)]
    show s ∈ (g.ere k).stmt_ids ∩ abridgeRs g hops
    refine Finset.mem_inter.mpr ⟨?_, hsRS⟩
    rw [hex k hkK]
    exact Finset.mem_filter.mpr ⟨hsK, hkend⟩
  have hnbm : ∀ s k x, s ∈ g.stmtKeys → s ∈ abridgeRs g hops → k ∈ g.ereKeys →
      k ∈ abridgeSeen2 g hops → k ∈ (g.stmt s).endIds → x ∈ (g.stmt s).pairIds →
      x ≠ k → x ∈ ((pruneStage g hops).ere k).neighbor_ere_ids := by
    intro s k x hsK hsRS hkK hkS2 hkend hxp hxk
    rw [pruneStage_ere_mem g hops k (Finset.mem_inter.mpr ⟨hkK, hkS2⟩)]
    show x ∈ (((g.ere k).stmt_ids ∩ abridgeRs g hops).biUnion
      (fun s => (g.stmt s).pairIds)) \ {k}
    refine Finset.mem_sdiff.mpr ⟨?_, by simpa using hxk⟩
    refine Finset.mem_biUnion.mpr ⟨s, ?_, hxp⟩
    refine Finset.mem_inter.mpr ⟨?_, hsRS⟩
    rw [hex k hkK]
    exact Finset.mem_filter.mpr ⟨hsK, hkend⟩
  unfold abridgeOK
  refine ⟨?_, ?_⟩
  · intro s hsf
    rw [pruneStage_stmtKeys] at hsf
    have hsK : s ∈ g.stmtKeys := (Finset.mem_inter.mp hsf).1
    have hsRS : s ∈ abridgeRs g hops := (Finset.mem_inter.mp hsf).2
    obtain ⟨-, hend⟩ := hENDS s hsRS
    rw [pruneStage_stmt, hfK]
    have hhdend : (g.stmt s).head_id ∈ (g.stmt s).endIds := mem_endIds.mpr (Or.inl rfl)
    have hhdK : (g.stmt s).head_id ∈ g.ereKeys := hW2 s hsK hhdend
    have hhdS2 : (g.stmt s).head_id ∈ abridgeSeen2 g hops := hend hhdend
    refine ⟨hhdS2, hmem s _ hsK hsRS hhdK hhdS2 hhdend, ?_⟩
    intro t ht
    have htl : (g.stmt s).tail_id = some t := by
      cases hcase : (g.stmt s).tail_id with
      | none =>
        rw [hcase] at ht
        simp at ht
      | some u =>
        rw [hcase] at ht
        simp at ht
        rw [ht]
    have htend : t ∈ (g.stmt s).endIds := mem_endIds.mpr (Or.inr htl)
    have htK : t ∈ g.ereKeys := hW2 s hsK htend
    have htS2 : t ∈ abridgeSeen2 g hops := hend htend
    have hne : t ≠ (g.stmt s).head_id := by
      intro h
      exact hsl s hsK (by rw [htl, h])
    have htp : t ∈ (g.stmt s).pairIds :=
      mem_pairIds.mpr ⟨by rw [htl]; simp, htend⟩
    have hhp : (g.stmt s).head_id ∈ (g.stmt s).pairIds :=
      mem_pairIds.mpr ⟨by rw [htl]; simp, hhdend⟩
    exact ⟨htS2, hmem s t hsK hsRS htK htS2 htend,
      hnbm s _ t hsK hsRS hhdK hhdS2 hhdend htp hne,
      hnbm s t _ hsK hsRS htK htS2 htend hhp (fun h => hne h.symm)⟩
  · intro k hkf
    rw [hfK] at hkf
    have hkK : k ∈ g.ereKeys := hseen2K hkf
    have hkI : k ∈ g.ereKeys ∩ abridgeSeen2 g hops := Finset.mem_inter.mpr ⟨hkK, hkf⟩
    obtain ⟨t, ht1, ht2, ht3⟩ := hTY k hkf
    rw [pruneStage_ere_mem g hops k hkI, pruneStage_stmt, pruneStage_stmtKeys]
    refine ⟨?_, ?_, ?_, ?_, ?_⟩
    · intro hkmem
      have hkmem2 : k ∈ (((g.ere k).stmt_ids ∩ abridgeRs g hops).biUnion
          (fun s => (g.stmt s).pairIds)) \ {k} := hkmem
      exact (Finset.mem_sdiff.mp hkmem2).2 (Finset.mem_singleton_self k)
    · show (((g.ere k).stmt_ids ∩ abridgeRs g hops).filter
          (fun s => (g.stmt s).tail_id = none)).card = 1
      rw [filter_inter_comm, ht1, Finset.singleton_inter_of_mem ht3]
      exact Finset.card_singleton t
    · intro s hsA hsnone
      have hsA2 : s ∈ (g.ere k).stmt_ids ∩ abridgeRs g hops := hsA
      have hst : s ∈ (g.ere k).stmt_ids.filter (fun s => (g.stmt s).tail_id = none) :=
        Finset.mem_filter.mpr ⟨(Finset.mem_inter.mp hsA2).1, hsnone⟩
      rw [ht1] at hst
      show (g.stmt s).graph_id = (g.ere k).graph_id
      rw [Finset.mem_singleton.mp hst]
      exact ht2
    · show (((g.ere k).stmt_ids ∩ abridgeRs g hops).biUnion
          (fun s => (g.stmt s).endIds)) \ {k} =
        (((g.ere k).stmt_ids ∩ abridgeRs g hops).biUnion
          (fun s => (g.stmt s).pairIds)) \ {k}
      exact biUnion_pair_end_sdiff g _ k (fun s hsA hnone =>
        hhead k hkK s (Finset.inter_subset_left hsA) hnone)
    · show (g.stmtKeys ∩ abridgeRs g hops).filter
          (fun s => k ∈ (g.stmt s).endIds) =
        (g.ere k).stmt_ids ∩ abridgeRs g hops
      rw [filter_inter_comm, ← hex k hkK]

/-- C2 (amended): for every mixture satisfying `AbridgeWF` (sound recorded
incident statements, no dangling endpoints, no self-loops, per-node typing
statements as `create_mix` leaves them, every node incident to a non-typing
statement), with at least one merge point in the processed graph and a hop
budget of at least 1 (the claim's own hypotheses; they also keep the
`set.union(*[])` calls at lines 109/117 from raising `TypeError`), every
assertion at the end of `abridge_graph` holds of the output graph. -/
theorem abridge_graph_ok (g0 : Graph) (tgt : String) (hops : Nat)
    (hwf : AbridgeWF g0 tgt)
    (_hmp : mergePoints (abridgeDedup tgt (recompute g0)) ≠ ∅)
    (_hhops : 1 ≤ hops) :
    abridgeOK (abridge_graph g0 tgt hops) :=
  pruneStage_ok (abridgeDedup tgt (recompute g0)) hops (stage2_props g0 tgt hwf)

def cm : String := "m"

def cx : String := "x"

def ctm : String := "tm"

def ct1 : String := "t1"

def ct2 : String := "t2"

def ce1 : String := "e1"

def ce2 : String := "e2"

/-- Counterexample mixture for C2: node `cx` carries one typing statement
from each of the two non-target source graphs (one per graph, as the spec's
data model allows), node `cm` is a merge point, the target is `"C"`. -/
def Wc2 : Graph :=
  { ereKeys := {cm, cx},
    stmtKeys := {ctm, ct1, ct2, ce1, ce2},
    ere := fun k =>
      if k = cm then eEre cm ("Event") ("C") {cx} {ctm, ce1, ce2}
      else eEre cx ("Entity") ("A") {cm} {ct1, ct2, ce1, ce2},
    stmt := fun s =>
      if s = ctm then eStmt ctm cm none [("T")] ("C")
      else if s = ct1 then eStmt ct1 cx none [("T")] ("A")
      else if s = ct2 then eStmt ct2 cx none [("U")] ("B")
      else if s = ce1 then eStmt ce1 cm (some cx) [("r")] ("A")
      else eStmt ce2 cm (some cx) [("r")] ("B") }

/-- C2 (counterexample): `Wc2` has a designated target graph, a merge point
(both before processing and at line 96), and a hop budget of 1, yet the
assertions fail: the dedup pass at lines 86-94 deletes both of `cx`'s
typing statements (neither is from the target graph), so the retained node
`cx` violates the one-typing-statement assertion of line 144. -/
theorem abridge_graph_counterexample :
    mergePoints Wc2 ≠ ∅ ∧
      mergePoints (abridgeDedup ("C") (recompute Wc2)) ≠ ∅ ∧
      1 ≤ 1 ∧ ¬ abridgeOK (abridge_graph Wc2 ("C") 1) := by
  decide

def dm : String := "m"

def da : String := "a"

def db : String := "b"

def dtm : String := "tm"

def dta : String := "ta"

def dtb : String := "tb"

def de1 : String := "e1"

def de2 : String := "e2"

/-- Witness mixture for the amended C2: a merge point `dm` of the target
graph joined to one node of each source graph, every node with exactly one
typing statement from its own graph. -/
def Wab : Graph :=
  { ereKeys := {dm, da, db},
    stmtKeys := {dtm, dta, dtb, de1, de2},
    ere := fun k =>
      if k = dm then eEre dm ("Event") ("C") {da, db} {dtm, de1, de2}
      else if k = da then eEre da ("Entity") ("A") {dm} {dta, de1}
      else eEre db ("Entity") ("B") {dm} {dtb, de2},
    stmt := fun s =>
      if s = dtm then eStmt dtm dm none [("T")] ("C")
      else if s = dta then eStmt dta da none [("T")] ("A")
      else if s = dtb then eStmt dtb db none [("T")] ("B")
      else if s = de1 then eStmt de1 dm (some da) [("r")] ("A")
      else eStmt de2 dm (some db) [("r")] ("B") }

theorem abridge_graph_ok_witness :
    AbridgeWF Wab ("C") ∧
      mergePoints (abridgeDedup ("C") (recompute Wab)) ≠ ∅ ∧
      1 ≤ 1 ∧ abridgeOK (abridge_graph Wab ("C") 1) :=
  ⟨by decide, by decide, by decide,
    abridge_graph_ok Wab ("C") 1 (by decide) (by decide) (by decide)⟩
